import Mathlib

/-!
Shallow embedding of the Deep Focus scanner core (Python repository
`Project-Deep-Focus`) and proofs about it.

The embedding covers the four subsystems the specification claims talk
about:

* `src/execution/fingerprint.py` — the weighted fingerprint evaluator
  (`FingerprintRule.evaluate`, `analyze`, the built-in `RULES` list);
* `src/execution/db_manager.py` — the observation store
  (`save_observation_batch`, `get_next_chunk`, `update_chunk_status`,
  `reset_stale_chunk`, `promote_ignored_chunks`);
* `src/execution/scheduler.py` — the chunked priority scheduler
  (`initialize_scan`, `get_next_chunk`, `complete_chunk`, `fail_chunk`);
* `src/execution/probes.py` — the probe set (`get_probe`, the per-class
  `run` error handling, `TelnetProbe.run`).

Modelling conventions, used throughout:

* Python `None` becomes `Option.none`; a dict key that the pipeline may
  omit becomes an `Option` field (`none` = absent).  The dicts produced by
  `Observation.to_dict` always carry every key, so the `.get(key, default)`
  defaults that are dead in the pipeline are noted where they occur.
* The regex engine `re.search(pattern, text, re.IGNORECASE)` is abstracted
  as an explicit `Matcher` parameter returning `m.groups()` on success;
  every theorem about the fingerprinter is proved for all matchers, and
  counterexamples instantiate a concrete matcher whose finitely many
  entries mirror what `re.search` returns on those concrete strings.
* ISO-8601 timestamp strings (`datetime.isoformat()`) are ordered exactly
  like the instants they denote, so timestamps are modelled as `Nat`.
* SQLite tables are lists of row structures; `AUTOINCREMENT` ids come from
  an explicit `nextId` counter; a failed statement makes the surrounding
  transaction commit nothing, modelled by `Except` with the caller keeping
  the pre-transaction state.
-/

namespace DeepFocus

/-! ## Fingerprinter (`src/execution/fingerprint.py`) -/

/-- `m.groups()` of a Python regex match: a possibly empty tuple whose
entries may themselves be `None` (a group that did not participate). -/
abbrev Groups := List (Option String)

/-- Abstract regex engine.  `matcher text pat = some gs` models
`re.search(pat, text, re.IGNORECASE)` succeeding with `m.groups() = gs`;
`none` models no match. -/
abbrev Matcher := String → String → Option Groups

/-- `fingerprint.py` lines 36-39, the `check` helper inside `evaluate`:
`if not text: return False, None` (both `None` and `""` are falsy), else
`re.search(regex, text, re.IGNORECASE)`. -/
def check (m : Matcher) (text : Option String) (regex : String) : Option Groups :=
  match text with
  | none => none
  | some t => if t = "" then none else m t regex

/-- The observation dict as read by the fingerprinter: `obs.get("banner")`,
`obs.get("body")`, `obs.get("headers", {})` (keys already lowercased by the
HTTP probe parser). -/
structure FObs where
  banner : Option String := none
  body : Option String := none
  headers : String → Option String := fun _ => none

/-- ASCII lower-casing of one character (`str.lower()` restricted to the
ASCII header names the rules use). -/
def charLower (c : Char) : Char :=
  if 'A' ≤ c ∧ c ≤ 'Z' then Char.ofNat (c.toNat + 32) else c

/-- Characters after the first `':'`. -/
def dropThroughColon : List Char → List Char
  | [] => []
  | c :: rest => if c = ':' then rest else dropThroughColon rest

/-- Characters up to (excluding) the next `':'`. -/
def takeUntilColon : List Char → List Char
  | [] => []
  | c :: rest => if c = ':' then [] else c :: takeUntilColon rest

/-- `location.split(":")[1].lower()` for a `header:<name>` location: the
second colon-separated segment, lower-cased. -/
def headerKey (location : String) : String :=
  String.mk ((takeUntilColon (dropThroughColon location.data)).map charLower)

/-- `location.startswith("header:")`, computed on the character list. -/
def isHeaderLocation (location : String) : Bool :=
  List.isPrefixOf "header:".data location.data

/-- One iteration of the `for location, pattern, weight in self.evidence`
dispatch in `FingerprintRule.evaluate` (fingerprint.py lines 41-56):
returns the match result for one evidence entry.  A location matching no
branch leaves `match = False`. -/
def evidenceMatch (m : Matcher) (obs : FObs) (location pattern : String) : Option Groups :=
  if location = "banner" then check m obs.banner pattern
  else if location = "body" then check m obs.body pattern
  else if isHeaderLocation location then
    check m (obs.headers (headerKey location)) pattern
  else if location = "title" then
    check m obs.body ("<title>.*" ++ pattern ++ ".*</title>")
  else none

/-- A fingerprint rule (fingerprint.py `FingerprintRule.__init__` /
`add_evidence`).  `evidence` entries are `(location, pattern, weight)`.
The mutable `self.last_groups` attribute is threaded separately (it is
per-instance state surviving across `analyze` calls). -/
structure FingerprintRule where
  name : String
  type : String := "unknown"
  vendor : Option String := none
  product : Option String := none
  tags : List String := []
  evidence : List (String × String × Int) := []
deriving DecidableEq, Repr

/-- State of `FingerprintRule.evaluate`'s loop: accumulated
`total_score`, `details`, and the instance's `last_groups`. -/
structure EvalState where
  totalScore : Int
  details : List String
  lastGroups : Option Groups

/-- One loop iteration of `FingerprintRule.evaluate` (lines 41-63):
on a match add the weight, append `"Matched <location>"`, and overwrite
`self.last_groups` with `m.groups()` (`if groups:` tests the match object,
which is always truthy on a match). -/
def evaluateStep (m : Matcher) (obs : FObs) (st : EvalState)
    (e : String × String × Int) : EvalState :=
  match evidenceMatch m obs e.1 e.2.1 with
  | none => st
  | some gs =>
    { totalScore := st.totalScore + e.2.2
      details := st.details ++ ["Matched " ++ e.1]
      lastGroups := some gs }

/-- `FingerprintRule.evaluate` (fingerprint.py lines 27-65), given the
instance's current `last_groups`.  Returns `(min(total_score, 100),
details)` together with the updated `last_groups`. -/
def FingerprintRule.evaluate (r : FingerprintRule) (m : Matcher) (obs : FObs)
    (lastGroups : Option Groups) : Int × List String × Option Groups :=
  let st := r.evidence.foldl (evaluateStep m obs)
    { totalScore := 0, details := [], lastGroups := lastGroups }
  (min st.totalScore 100, st.details, st.lastGroups)

/-- The dict returned by `analyze` (fingerprint.py lines 156-164). -/
structure AnalysisResult where
  serviceType : String
  vendor : String
  product : String
  version : Option String
  tags : List String
  confidence : Int
  evidence : List String
deriving DecidableEq, Repr

/-- `analyze`'s default result (all-unknown, confidence 0). -/
def defaultResult : AnalysisResult :=
  { serviceType := "unknown", vendor := "unknown", product := "unknown"
    version := none, tags := [], confidence := 0, evidence := [] }

/-- Python `x or "unknown"` on an optional string (`best_rule.vendor or
"unknown"`): `None` and `""` are falsy. -/
def orUnknown : Option String → String
  | none => "unknown"
  | some s => if s = "" then "unknown" else s

/-- Truthiness test plus first-element extraction for
`if ... best_rule.last_groups: result["version"] = best_rule.last_groups[0]`
(fingerprint.py lines 175-176): `None` and the empty tuple are falsy. -/
def versionOf : Option Groups → Option String
  | some (c :: _) => c
  | _ => none

/-- A rule paired with its instance's `last_groups` state. -/
abbrev RuleState := FingerprintRule × Option Groups

/-- One rule's evaluation record inside `analyze`'s loop:
the rule, its score and details, and its post-call `last_groups`. -/
abbrev EvalRec := FingerprintRule × Int × List String × Option Groups

/-- Evaluate every rule (the `for rule in RULES: score, details =
rule.evaluate(...)` part of `analyze`), recording each rule's result and
updated `last_groups`. -/
def runRules (m : Matcher) (obs : FObs) (rs : List RuleState) : List EvalRec :=
  rs.map fun p => (p.1, p.1.evaluate m obs p.2)

/-- `analyze`'s best-rule fold (fingerprint.py lines 145-154):
`best_rule = None; best_score = 0; ... if score > best_score: ...`. -/
def pickBest (l : List EvalRec) : Option EvalRec × Int :=
  l.foldl (fun acc e => if e.2.1 > acc.2 then (some e, e.2.1) else acc) (none, 0)

/-- `analyze(observation_dict)` (fingerprint.py lines 140-178) over a rule
list with explicit per-rule `last_groups` state.  Returns the result dict
and the rules' updated states.  The source always calls this with the
module-level `RULES`, whose states persist across calls. -/
def analyzeWith (m : Matcher) (rs : List RuleState) (obs : FObs) :
    AnalysisResult × List RuleState :=
  let evald := runRules m obs rs
  let newStates := evald.map fun e => (e.1, e.2.2.2)
  match pickBest evald with
  | (some b, bestScore) =>
    ({ serviceType := b.1.type
       vendor := orUnknown b.1.vendor
       product := orUnknown b.1.product
       version := versionOf b.2.2.2
       tags := b.1.tags
       confidence := bestScore
       evidence := b.2.2.1 }, newStates)
  | (none, _) => (defaultResult, newStates)

/-- The module-level `RULES` list (fingerprint.py lines 68-137), in
declaration order, with each rule's evidence in `add_evidence` order. -/
def RULES : List FingerprintRule :=
  [ { name := "Apache", type := "http", vendor := some "Apache", product := some "HTTP Server"
      evidence := [("banner", "Apache", 40),
                   ("banner", "Apache/([\\d\\.]+)", 60),
                   ("header:server", "Apache", 30)] }
  , { name := "Nginx", type := "http", vendor := some "Nginx", product := some "Nginx"
      evidence := [("banner", "nginx", 40),
                   ("banner", "nginx/([\\d\\.]+)", 60),
                   ("header:server", "nginx", 30)] }
  , { name := "Hikvision", type := "camera", vendor := some "Hikvision"
      product := some "IP Camera", tags := ["iot", "surveillance"]
      evidence := [("banner", "Hikvision", 50),
                   ("body", "<title>Hikvision</title>", 60),
                   ("header:server", "Hikvision", 50),
                   ("header:server", "App-webs", 30)] }
  , { name := "OpenSSH", type := "ssh", vendor := some "OpenBSD", product := some "OpenSSH"
      evidence := [("banner", "OpenSSH", 50),
                   ("banner", "OpenSSH_([\\w\\.]+)", 50)] }
  , { name := "Generic HTTP", type := "http", vendor := some "unknown"
      product := some "HTTP Server"
      evidence := [("banner", "HTTP/\\d\\.\\d", 30),
                   ("banner", "Server:", 20),
                   ("body", "<html", 40)] }
  , { name := "Generic RTSP", type := "rtsp", vendor := some "unknown"
      product := some "RTSP Server"
      evidence := [("banner", "RTSP/\\d\\.\\d", 50)] }
  , { name := "VNC", type := "vnc", vendor := some "RealVNC", product := some "VNC Server"
      tags := ["remote_desktop"]
      evidence := [("banner", "^RFB \\d{3}\\.\\d{3}", 100)] }
  , { name := "FTP", type := "ftp", vendor := some "unknown", product := some "FTP Server"
      tags := ["file_transfer"]
      evidence := [("banner", "^220.*FTP", 80),
                   ("banner", "vsftpd", 90),
                   ("banner", "ProFTPD", 90)] }
  , { name := "Caddy", type := "http", vendor := some "Caddy"
      product := some "Caddy Web Server"
      evidence := [("header:server", "Caddy", 100)] }
  , { name := "Dahua", type := "camera", vendor := some "Dahua", product := some "IP Camera"
      tags := ["iot", "surveillance"]
      evidence := [("banner", "Dahua", 60),
                   ("header:server", "Dahua", 60),
                   ("body", "dahua", 40)] }
  , { name := "Home Assistant", type := "iot", vendor := some "Home Assistant"
      product := some "Home Assistant", tags := ["smart_home"]
      evidence := [("body", "Home Assistant", 80),
                   ("title", "Home Assistant", 80)] } ]

/-- The `RULES` instances as first created at import time:
every `last_groups` is `None` (`self.last_groups = None` in `__init__`). -/
def RULES0 : List RuleState := RULES.map fun r => (r, none)

/-- Spec-side description of the `last_groups` a single `evaluate` call
leaves behind: the `m.groups()` of the *last* matching evidence entry, or
`none` when no entry matches.  Compared against the fold inside
`FingerprintRule.evaluate` in the theorems below. -/
def lastMatched (m : Matcher) (obs : FObs) :
    List (String × String × Int) → Option Groups
  | [] => none
  | e :: rest =>
    match lastMatched m obs rest with
    | some g => some g
    | none => evidenceMatch m obs e.1 e.2.1

/-! ## Observation store (`src/execution/db_manager.py`) -/

/-- The `analysis` sub-dict attached to an observation dict
(`obs['analysis']`, produced by `fingerprint.analyze`).  Each field models
one key, `none` meaning the key is absent (`dict.get` then returns its
default). -/
structure AnalysisDict where
  serviceType : Option String := none
  vendor : Option String := none
  product : Option String := none
  version : Option String := none
  confidence : Option Int := none
  tags : Option (List String) := none
deriving DecidableEq, Repr

/-- An observation dict as consumed by `save_observation_batch`
(the output of `Observation.to_dict()` plus the `analysis` key).
`to_dict` always emits the `ip`, `port`, `protocol`, `status`, `banner`
and `timestamp` keys, so only `banner` (whose value may be `None`) and
`analysis` are optional here; the `obs.get('banner', '')` default on the
insert path is dead in the pipeline. -/
structure ObsRec where
  ip : String
  port : Nat
  protocol : String
  status : String
  banner : Option String := none
  timestamp : Nat
  analysis : Option AnalysisDict := none
deriving DecidableEq, Repr

/-- A row of the `services` table (db_manager.py `INIT_SCRIPT` lines
23-40).  `UNIQUE(ip, port, protocol)` is the constraint the insert path
can violate. -/
structure ServiceRow where
  id : Nat
  ip : String
  port : Nat
  protocol : String
  state : String
  serviceType : Option String := none
  vendor : Option String := none
  product : Option String := none
  version : Option String := none
  banner : Option String := none
  confidence : Option Int := none
  tags : Option (List String) := none
  firstSeen : Nat
  lastSeen : Nat
deriving DecidableEq, Repr

/-- A row of the `history` table (`INIT_SCRIPT` lines 43-50).  `banner`
here is the `new_banner` string, which is never `None` on the insert
(db_manager.py line 131 normalizes with `or ""`). -/
structure HistoryRow where
  serviceId : Nat
  timestamp : Nat
  banner : String
  state : String
deriving DecidableEq, Repr

/-- A row of the `hosts` table. -/
structure HostRow where
  ip : String
  firstSeen : Nat
  lastSeen : Nat
deriving DecidableEq, Repr

/-- The database file contents relevant to the batch-save path, plus the
`services` `AUTOINCREMENT` counter. -/
structure DB where
  hosts : List HostRow := []
  services : List ServiceRow := []
  history : List HistoryRow := []
  nextServiceId : Nat := 1
deriving DecidableEq, Repr

/-- The empty, freshly initialized database. -/
def emptyDB : DB := {}

/-- `INSERT INTO hosts ... ON CONFLICT(ip) DO UPDATE SET
last_seen=excluded.last_seen` for a single `(ip, ts)` pair
(`upsert_host_batch`, db_manager.py lines 77-91). -/
def upsertHost (hs : List HostRow) (ip : String) (ts : Nat) : List HostRow :=
  if hs.any fun h => h.ip = ip then
    hs.map fun h => if h.ip = ip then { h with lastSeen := ts } else h
  else hs ++ [{ ip := ip, firstSeen := ts, lastSeen := ts }]

/-- `upsert_host_batch` over the `(obs['ip'], obs['timestamp'])` pairs of a
batch. -/
def upsertHostBatch (hs : List HostRow) (obs : List ObsRec) : List HostRow :=
  obs.foldl (fun hs o => upsertHost hs o.ip o.timestamp) hs

/-- The `(ip, port, protocol)` key of an observation dict. -/
def obsKey (o : ObsRec) : String × Nat × String := (o.ip, o.port, o.protocol)

/-- The `(ip, port, protocol)` key of a service row. -/
def rowKey (r : ServiceRow) : String × Nat × String := (r.ip, r.port, r.protocol)

/-- Lookup in the `existing_map` built by the pre-batch `SELECT ... FROM
services WHERE ip IN (...)` (db_manager.py lines 108-116).  The query
fetches every row whose ip occurs in the batch and the dict is keyed by
the full `(ip, port, protocol)` triple, so for a key-unique table the map
agrees with direct key lookup in `services`. -/
def findService (svcs : List ServiceRow) (k : String × Nat × String) : Option ServiceRow :=
  svcs.find? fun r => rowKey r = k

/-- Python `obs.get('banner') or ""` (db_manager.py line 131): `None` and
`""` both normalize to `""`. -/
def normBanner : Option String → String
  | none => ""
  | some s => s

/-- `str(analysis.get('tags', []))` always yields a string, so the stored
`tags` value is never NULL; the list itself is stored here in place of its
`str()` serialization (no claim depends on the rendering). -/
def tagsValue (a : Option AnalysisDict) : Option (List String) :=
  some ((a.bind fun d => d.tags).getD [])

/-- One entry of the `to_update` list (db_manager.py lines 134-140):
the parameter tuple of the `UPDATE services SET ...` statement. -/
structure UpdateEntry where
  ts : Nat
  banner : String
  serviceType : Option String
  vendor : Option String
  product : Option String
  version : Option String
  confidence : Option Int
  tags : Option (List String)
  state : String
  svcId : Nat
deriving DecidableEq, Repr

/-- The `to_insert` / `to_update` / `history_inserts` lists accumulated by
the partition loop of `save_observation_batch` (lines 118-152). -/
structure BatchPlan where
  toInsert : List ObsRec := []
  toUpdate : List UpdateEntry := []
  histInserts : List HistoryRow := []
deriving DecidableEq, Repr

/-- The history condition of db_manager.py line 143:
`(new_banner and new_banner != old_banner) or (new_state != old_state)`,
where `old_banner` is the stored (possibly NULL) value and `new_banner`
the normalized string. -/
def histChanged (newBanner : String) (newState : String) (oldBanner : Option String)
    (oldState : String) : Bool :=
  (newBanner ≠ "" && oldBanner ≠ some newBanner) || newState ≠ oldState

/-- One iteration of the partition loop (`for obs in observations`,
db_manager.py lines 122-152), against the static `existing_map` snapshot
`svcs`. -/
def planStep (svcs : List ServiceRow) (p : BatchPlan) (o : ObsRec) : BatchPlan :=
  match findService svcs (obsKey o) with
  | some r =>
    let newBanner := normBanner o.banner
    let newState := o.status
    let a := o.analysis
    let u : UpdateEntry :=
      { ts := o.timestamp, banner := newBanner
        serviceType := a.bind fun d => d.serviceType
        vendor := a.bind fun d => d.vendor
        product := a.bind fun d => d.product
        version := a.bind fun d => d.version
        confidence := a.bind fun d => d.confidence
        tags := tagsValue a
        state := newState, svcId := r.id }
    { p with
      toUpdate := p.toUpdate ++ [u]
      histInserts := p.histInserts ++
        (if histChanged newBanner newState r.banner r.state then
          [{ serviceId := r.id, timestamp := o.timestamp
             banner := newBanner, state := newState }]
         else []) }
  | none => { p with toInsert := p.toInsert ++ [o] }

/-- The whole partition loop. -/
def planBatch (svcs : List ServiceRow) (obs : List ObsRec) : BatchPlan :=
  obs.foldl (planStep svcs) {}

/-- The service row written by the `INSERT INTO services ...` for a newly
discovered key (db_manager.py lines 146-163).  `confidence` defaults to
`0` (`analysis.get('confidence', 0)`), the other identity fields to NULL. -/
def insertRowOf (o : ObsRec) (id : Nat) : ServiceRow :=
  let a := o.analysis
  { id := id, ip := o.ip, port := o.port, protocol := o.protocol
    state := o.status, banner := o.banner
    serviceType := a.bind fun d => d.serviceType
    vendor := a.bind fun d => d.vendor
    product := a.bind fun d => d.product
    version := a.bind fun d => d.version
    confidence := some ((a.bind fun d => d.confidence).getD 0)
    tags := tagsValue a
    firstSeen := o.timestamp, lastSeen := o.timestamp }

/-- `executemany` over `to_insert`: each `INSERT` is checked against the
`UNIQUE(ip, port, protocol)` constraint of the current table state; a
violation raises `IntegrityError` and aborts the transaction. -/
def runInserts (svcs : List ServiceRow) (nextId : Nat) :
    List ObsRec → Except String (List ServiceRow × Nat)
  | [] => .ok (svcs, nextId)
  | o :: rest =>
    if svcs.any fun r => rowKey r = obsKey o then
      .error "UNIQUE constraint failed: services.ip, services.port, services.protocol"
    else runInserts (svcs ++ [insertRowOf o nextId]) (nextId + 1) rest

/-- Python `COALESCE(?, column)`: keep the new value when non-NULL. -/
def coalesce (new old : Option α) : Option α :=
  match new with
  | some v => some v
  | none => old

/-- One `UPDATE services SET ... WHERE id = ?` application (db_manager.py
lines 167-181) to a single row. -/
def applyUpdate (u : UpdateEntry) (r : ServiceRow) : ServiceRow :=
  if r.id = u.svcId then
    { r with
      lastSeen := u.ts
      banner := some u.banner
      serviceType := coalesce u.serviceType r.serviceType
      vendor := coalesce u.vendor r.vendor
      product := coalesce u.product r.product
      version := coalesce u.version r.version
      confidence := coalesce u.confidence r.confidence
      tags := coalesce u.tags r.tags
      state := u.state }
  else r

/-- `executemany` over `to_update`. -/
def runUpdates (svcs : List ServiceRow) (us : List UpdateEntry) : List ServiceRow :=
  us.foldl (fun s u => s.map (applyUpdate u)) svcs

/-- `save_observation_batch(observations)` (db_manager.py lines 93-189).
`Except.error` models the transaction aborting before `commit()`
(the connection closes without committing, so the caller's database is
unchanged); `Except.ok` is the committed post-state. -/
def saveObservationBatch (db : DB) (obs : List ObsRec) : Except String DB :=
  if obs = [] then .ok db
  else
    let hosts := upsertHostBatch db.hosts obs
    let p := planBatch db.services obs
    match runInserts db.services db.nextServiceId p.toInsert with
    | .error e => .error e
    | .ok (svcs1, nid) =>
      .ok { hosts := hosts
            services := runUpdates svcs1 p.toUpdate
            history := db.history ++ p.histInserts
            nextServiceId := nid }

/-- A sequence of single-observation batches
(`save_observation_batch([o])` repeatedly), as in the spec's property
about adjacent observation pairs. -/
def processSeq (db : DB) : List ObsRec → Except String DB
  | [] => .ok db
  | o :: rest =>
    match saveObservationBatch db [o] with
    | .ok db2 => processSeq db2 rest
    | .error e => .error e

/-- The claim's adjacent-pair change predicate: `status` differs, or the
later observation's `banner` differs from the earlier one's and is
non-empty. -/
def pairChanged (a b : ObsRec) : Bool :=
  b.status ≠ a.status || (b.banner ≠ a.banner && normBanner b.banner ≠ "")

/-- Number of adjacent observation pairs that change, per the claim. -/
def countChanges : List ObsRec → Nat
  | a :: b :: rest => (if pairChanged a b then 1 else 0) + countChanges (b :: rest)
  | _ => 0

/-! ## Scan chunks and scheduler (`db_manager.py` scheduler ops,
`src/execution/scheduler.py`) -/

/-- `scheduler.py` line 12. -/
def MAX_RETRIES : Nat := 3

/-- `scheduler.py` line 11. -/
def CHUNK_SIZE : Nat := 256

/-- The `status` column of `scan_state`
(`QUEUED, SCANNING, RETRYING, COMPLETED, FAILED`). -/
inductive ChunkStatus where
  | queued
  | scanning
  | retrying
  | completed
  | failed
deriving DecidableEq, Repr

/-- A row of the `scan_state` table (`INIT_SCRIPT` lines 53-64). -/
structure ScanChunk where
  id : Nat
  cidr : String := ""
  chunkStart : String := ""
  chunkEnd : String := ""
  status : ChunkStatus
  priority : Int := 1
  retryCount : Nat := 0
  lastError : Option String := none
  createdAt : Nat
  updatedAt : Nat
deriving DecidableEq, Repr

/-- `status IN ('QUEUED', 'RETRYING')`. -/
def isPending (c : ScanChunk) : Bool :=
  c.status = ChunkStatus.queued || c.status = ChunkStatus.retrying

/-- `d` sorts strictly before `best` under
`ORDER BY priority DESC, created_at ASC`. -/
def betterChunk (best d : ScanChunk) : Bool :=
  best.priority < d.priority || (best.priority = d.priority && d.createdAt < best.createdAt)

/-- Selects the first row of the `ORDER BY priority DESC, created_at ASC`
order: a fold keeping the earlier row unless a strictly better one
appears. -/
def pickChunk (a : ScanChunk) (l : List ScanChunk) : ScanChunk :=
  l.foldl (fun best d => if betterChunk best d then d else best) a

/-- `db_manager.get_next_chunk` (db_manager.py lines 217-234):
`SELECT ... FROM scan_state WHERE status IN ('QUEUED','RETRYING')
ORDER BY priority DESC, created_at ASC LIMIT 1`. -/
def getNextChunkRow (tbl : List ScanChunk) : Option ScanChunk :=
  match tbl.filter isPending with
  | [] => none
  | c :: rest => some (pickChunk c rest)

/-- Python truthiness of the `error` argument (`if error:` in
`update_chunk_status`): `None` and `""` are falsy. -/
def errTruthy : Option String → Bool
  | none => false
  | some e => e ≠ ""

/-- `db_manager.update_chunk_status(chunk_id, status, error)`
(db_manager.py lines 236-253): with a truthy `error` the row additionally
gets `last_error` and `retry_count = retry_count + 1`. -/
def updateChunkStatus (now : Nat) (chunkId : Nat) (status : ChunkStatus)
    (error : Option String) (tbl : List ScanChunk) : List ScanChunk :=
  tbl.map fun c =>
    if c.id = chunkId then
      if errTruthy error then
        { c with status := status, lastError := error, updatedAt := now
                 retryCount := c.retryCount + 1 }
      else { c with status := status, updatedAt := now }
    else c

/-- `db_manager.reset_stale_chunk(chunk_id)` (db_manager.py lines
277-288): `UPDATE scan_state SET status = 'QUEUED', updated_at = ?,
retry_count = 0 WHERE id = ?` — the WHERE clause tests only the id. -/
def resetStaleChunk (now : Nat) (chunkId : Nat) (tbl : List ScanChunk) : List ScanChunk :=
  tbl.map fun c =>
    if c.id = chunkId then
      { c with status := ChunkStatus.queued, updatedAt := now, retryCount := 0 }
    else c

/-- `db_manager.promote_ignored_chunks` (db_manager.py lines 290-307):
`SET priority = priority + 1 WHERE status = 'QUEUED' AND created_at < ?
AND priority < 10`. -/
def promoteIgnored (now cutoff : Nat) (tbl : List ScanChunk) : List ScanChunk :=
  tbl.map fun c =>
    if c.status = ChunkStatus.queued && c.createdAt < cutoff && c.priority < 10 then
      { c with priority := c.priority + 1, updatedAt := now }
    else c

/-- `db_manager.create_scan_chunk(cidr, start_ip, end_ip, priority)`
(db_manager.py lines 205-215); `id` comes from `AUTOINCREMENT`. -/
def createScanChunk (id : Nat) (cidr startIp endIp : String) (priority : Int)
    (now : Nat) : ScanChunk :=
  { id := id, cidr := cidr, chunkStart := startIp, chunkEnd := endIp
    status := ChunkStatus.queued, priority := priority
    createdAt := now, updatedAt := now }

/-- `scheduler.get_next_chunk` (scheduler.py lines 44-64), after the
`maintain_queue_health()` call (maintenance is modelled as separate
transitions): fetch the store's candidate; a candidate with
`retry_count >= MAX_RETRIES` is marked FAILED (with error, so its
retry_count is also incremented by `update_chunk_status`) and the
scheduler recurses; otherwise the candidate is marked SCANNING and
`(id, start, end)` is returned. -/
def schedulerNext (now : Nat) (tbl : List ScanChunk) :
    List ScanChunk × Option (Nat × String × String) :=
  match h : getNextChunkRow tbl with
  | none => (tbl, none)
  | some c =>
    if MAX_RETRIES ≤ c.retryCount then
      schedulerNext now
        (updateChunkStatus now c.id ChunkStatus.failed (some "Max Retries Exceeded") tbl)
    else
      (updateChunkStatus now c.id ChunkStatus.scanning none tbl,
       some (c.id, c.chunkStart, c.chunkEnd))
termination_by tbl.countP isPending
decreasing_by
  have pick_mem : ∀ (l : List ScanChunk) (a : ScanChunk), pickChunk a l ∈ a :: l := by
    intro l
    induction l with
    | nil => intro a; simp [pickChunk]
    | cons d t ih =>
      intro a
      have hstep : pickChunk a (d :: t) = pickChunk (if betterChunk a d then d else a) t := rfl
      rw [hstep]
      rcases List.mem_cons.mp (ih (if betterChunk a d then d else a)) with h1 | h1
      · by_cases hb : betterChunk a d
        · rw [if_pos hb] at h1 ⊢
          exact List.mem_cons.mpr (Or.inr (List.mem_cons.mpr (Or.inl h1)))
        · rw [if_neg hb] at h1 ⊢
          exact List.mem_cons.mpr (Or.inl h1)
      · simp [List.mem_cons, h1]
  have hmemf : c ∈ tbl.filter isPending := by
    unfold getNextChunkRow at h
    rcases hf : tbl.filter isPending with _ | ⟨c0, rest⟩
    · rw [hf] at h; exact absurd h (by simp)
    · rw [hf] at h
      simp only [Option.some.injEq] at h
      rw [← h]
      exact pick_mem rest c0
  have hc_mem : c ∈ tbl := (List.mem_filter.mp hmemf).1
  have hc_pend : isPending c = true := (List.mem_filter.mp hmemf).2
  show (updateChunkStatus now c.id ChunkStatus.failed (some "Max Retries Exceeded") tbl).countP
        isPending < tbl.countP isPending
  unfold updateChunkStatus
  have main : ∀ l : List ScanChunk,
      (l.map fun x =>
        if x.id = c.id then
          if errTruthy (some "Max Retries Exceeded") then
            { x with status := ChunkStatus.failed, lastError := some "Max Retries Exceeded"
                     updatedAt := now, retryCount := x.retryCount + 1 }
          else { x with status := ChunkStatus.failed, updatedAt := now }
        else x).countP isPending ≤ l.countP isPending ∧
      (c ∈ l →
        (l.map fun x =>
          if x.id = c.id then
            if errTruthy (some "Max Retries Exceeded") then
              { x with status := ChunkStatus.failed, lastError := some "Max Retries Exceeded"
                       updatedAt := now, retryCount := x.retryCount + 1 }
            else { x with status := ChunkStatus.failed, updatedAt := now }
          else x).countP isPending < l.countP isPending) := by
    intro l
    induction l with
    | nil => exact ⟨Nat.le_refl _, fun hmem => absurd hmem (List.not_mem_nil c)⟩
    | cons a t ih =>
      have herr : errTruthy (some "Max Retries Exceeded") = true := by decide
      have hrow : ∀ x : ScanChunk,
          (if isPending (if x.id = c.id then
            if errTruthy (some "Max Retries Exceeded") then
              { x with status := ChunkStatus.failed, lastError := some "Max Retries Exceeded"
                       updatedAt := now, retryCount := x.retryCount + 1 }
            else { x with status := ChunkStatus.failed, updatedAt := now }
          else x) then 1 else 0) ≤ (if isPending x then 1 else 0) := by
        intro x
        by_cases hid : x.id = c.id
        · simp [hid, herr, isPending]
        · simp [hid]
      constructor
      · simp only [List.map_cons, List.countP_cons]
        have := ih.1
        have := hrow a
        omega
      · intro hmem
        rcases List.mem_cons.mp hmem with heq | hmem2
        · simp only [List.map_cons, List.countP_cons]
          have h1 := ih.1
          have hid : a.id = c.id := by rw [← heq]
          have hpa : isPending a = true := by rw [← heq]; exact hc_pend
          have h2 : (if isPending (if a.id = c.id then
              if errTruthy (some "Max Retries Exceeded") then
                { a with status := ChunkStatus.failed, lastError := some "Max Retries Exceeded"
                         updatedAt := now, retryCount := a.retryCount + 1 }
              else { a with status := ChunkStatus.failed, updatedAt := now }
            else a) then 1 else 0) = 0 := by
            simp [hid, herr, isPending]
          have h3 : (if isPending a then 1 else 0) = 1 := by
            simp [hpa]
          omega
        · simp only [List.map_cons, List.countP_cons]
          have h1 := ih.2 hmem2
          have h2 := hrow a
          omega
  exact (main tbl).2 hc_mem

/-! ## Probes (`src/execution/probes.py`) -/

/-- The `Observation` dataclass (probes.py lines 7-51); the fields the
claims mention.  `latency_ms` is modelled in whole milliseconds. -/
structure Observation where
  ip : String
  port : Nat
  protocol : String
  service : String
  latencyMs : Nat
  status : String
  errorReason : Option String := none
  banner : Option String := none
deriving DecidableEq, Repr

/-- The probe classes of probes.py. -/
inductive ProbeKind where
  | http
  | vnc
  | ftp
  | ssh
  | rtsp
  | telnet
  | mqtt
  | tcp
deriving DecidableEq, Repr

/-- `get_probe(port)` (probes.py lines 497-514). -/
def get_probe (port : Nat) : ProbeKind :=
  if port = 80 ∨ port = 8080 ∨ port = 8000 ∨ port = 443 ∨ port = 8443 then ProbeKind.http
  else if port = 5900 then ProbeKind.vnc
  else if port = 21 then ProbeKind.ftp
  else if port = 22 then ProbeKind.ssh
  else if port = 554 then ProbeKind.rtsp
  else if port = 23 then ProbeKind.telnet
  else if port = 1883 then ProbeKind.mqtt
  else ProbeKind.tcp

/-- An I/O fault raised inside a probe's `try` body: `asyncio.TimeoutError`
(whose `str()` is the empty string), `ConnectionRefusedError`, or another
`OSError`; `msg` is the exception's `str(e)`. -/
inductive Fault where
  | timedOut
  | refused (msg : String)
  | osError (msg : String)
deriving DecidableEq, Repr

/-- `str(e)` of a fault's exception object. -/
def faultStr : Fault → String
  | Fault.timedOut => ""
  | Fault.refused msg => msg
  | Fault.osError msg => msg

/-- `TCPProbe.run`'s exception handlers (probes.py lines 92-106):
`asyncio.TimeoutError` → timeout/"Timeout", `ConnectionRefusedError` →
closed/"Refused", other `OSError` → error/str(e). -/
def tcpFailObs (port latencyMs : Nat) (ip : String) : Fault → Observation
  | Fault.timedOut =>
    { ip := ip, port := port, protocol := "tcp", service := "tcp"
      latencyMs := latencyMs, status := "timeout", errorReason := some "Timeout" }
  | Fault.refused _ =>
    { ip := ip, port := port, protocol := "tcp", service := "tcp"
      latencyMs := latencyMs, status := "closed", errorReason := some "Refused" }
  | Fault.osError msg =>
    { ip := ip, port := port, protocol := "tcp", service := "tcp"
      latencyMs := latencyMs, status := "error", errorReason := some msg }

/-- The single `except Exception as e` handler shared (in shape) by the
HTTP, VNC, FTP, SSH, RTSP, Telnet and MQTT probes: every failure becomes
`status="closed"` with `error_reason=str(e)` (e.g. probes.py lines
171-175 for HTTP, 491-495 for MQTT). -/
def catchAllObs (service : String) (port latencyMs : Nat) (ip : String)
    (f : Fault) : Observation :=
  { ip := ip, port := port, protocol := "tcp", service := service
    latencyMs := latencyMs, status := "closed", errorReason := some (faultStr f) }

/-- The `service` string each non-TCP probe's exception handler writes
(the HTTP handler always writes `"http"`, probes.py line 173). -/
def handlerService : ProbeKind → String
  | ProbeKind.http => "http"
  | ProbeKind.vnc => "vnc"
  | ProbeKind.ftp => "ftp"
  | ProbeKind.ssh => "ssh"
  | ProbeKind.rtsp => "rtsp"
  | ProbeKind.telnet => "telnet"
  | ProbeKind.mqtt => "mqtt"
  | ProbeKind.tcp => "tcp"

/-- The Observation a probe's `run` returns when its `try` body raises
fault `f`: the embedding of each class's `except` clauses.  Every branch
returns an Observation (no exception escapes the handlers modelled here). -/
def probeFailObs (k : ProbeKind) (port latencyMs : Nat) (ip : String)
    (f : Fault) : Observation :=
  match k with
  | ProbeKind.tcp => tcpFailObs port latencyMs ip f
  | k => catchAllObs (handlerService k) port latencyMs ip f

/-- Python's per-byte printable filter `re.sub(r'[^\x20-\x7E]', '', s)`:
keep exactly the characters in 0x20-0x7E. -/
def stripNonPrintable (s : String) : String :=
  String.mk (s.data.filter fun ch => 0x20 ≤ ch.toNat && ch.toNat ≤ 0x7E)

/-- Outcome of the Telnet probe's connect-and-read: either the decoded,
whitespace-stripped banner text, or a fault. -/
inductive TelnetOutcome where
  | success (text : String)
  | fault (f : Fault)
deriving DecidableEq, Repr

/-- `TelnetProbe.run` (probes.py lines 401-431).  On a successful
connection and read, line 418 evaluates `re.sub(r'[^\x20-\x7E]', '',
banner_str)`; probes.py never imports `re` (its imports, lines 1-5, are
`asyncio`, `time`, `ssl`, `dataclasses`, `typing` — despite the comment
on line 417 saying `re is imported at top of file`), so the name lookup
raises `NameError("name 're' is not defined")`, which the
`except Exception as e` handler (lines 427-431) converts into a closed
Observation with `error_reason = str(e)`. -/
def telnetRun (port latencyMs : Nat) (ip : String) : TelnetOutcome → Observation
  | TelnetOutcome.success _ =>
    { ip := ip, port := port, protocol := "tcp", service := "telnet"
      latencyMs := latencyMs, status := "closed"
      errorReason := some "name 're' is not defined" }
  | TelnetOutcome.fault f => catchAllObs "telnet" port latencyMs ip f

/-- What `TelnetProbe.run`'s success path was written to produce (per the
spec and the comment on probes.py line 417): an open Observation whose
banner is the read text with non-printable bytes stripped. -/
def telnetIntendedRun (port latencyMs : Nat) (ip : String) : TelnetOutcome → Observation
  | TelnetOutcome.success text =>
    { ip := ip, port := port, protocol := "tcp", service := "telnet"
      latencyMs := latencyMs, status := "open"
      banner := some (stripNonPrintable text) }
  | TelnetOutcome.fault f => catchAllObs "telnet" port latencyMs ip f

/-! ## CIDR chunking (`scheduler.initialize_scan`) -/

/-- A parsed IPv4 network as produced by
`ipaddress.ip_network(target_cidr, strict=False)`: the (mask-aligned)
network address and the prefix length. -/
structure IPv4Net where
  base : Nat
  prefixLen : Nat
deriving DecidableEq, Repr

/-- `network.num_addresses` for an IPv4 network. -/
def numAddresses (n : IPv4Net) : Nat := 2 ^ (32 - n.prefixLen)

/-- The chunks `initialize_scan` enqueues for a parsed network
(scheduler.py lines 30-42), as inclusive `(first, last)` address ranges:
one chunk `(network[0], network[-1])` when `num_addresses <= CHUNK_SIZE`;
otherwise one chunk per `/24` subnet (`network.subnets(new_prefix=24)`)
when `prefixlen < 24`; otherwise a single chunk. -/
def initScanChunks (n : IPv4Net) : List (Nat × Nat) :=
  if numAddresses n ≤ CHUNK_SIZE then
    [(n.base, n.base + numAddresses n - 1)]
  else if n.prefixLen < 24 then
    (List.range (2 ^ (24 - n.prefixLen))).map fun i =>
      (n.base + 256 * i, n.base + 256 * i + 255)
  else
    [(n.base, n.base + numAddresses n - 1)]

/-- `initialize_scan(target_cidr, priority)` (scheduler.py lines 17-42):
`parsed = none` models `ipaddress.ip_network` raising `ValueError`, which
is caught, logged, and followed by `return` — nothing is enqueued and no
exception escapes. -/
def initScan (parsed : Option IPv4Net) : List (Nat × Nat) :=
  match parsed with
  | none => []
  | some n => initScanChunks n

/-! ## The scheduler's chunk lifecycle as a transition system -/

/-- The `scan_state` table plus its `AUTOINCREMENT` counter. -/
structure SchedStore where
  chunks : List ScanChunk := []
  nextChunkId : Nat := 1
deriving DecidableEq, Repr

/-- The operations the repository performs on `scan_state`, as observed
from their call sites:
* `create` — `scheduler.initialize_scan` → `db_manager.create_scan_chunk`;
* `next` — `scheduler.get_next_chunk` (one full call, including its
  FAILED-marking recursion);
* `complete` / `fail` — `scheduler.complete_chunk` / `scheduler.fail_chunk`,
  which the engine (`scanner.py` main loop, lines 158-187) invokes only on
  the chunk id it just obtained from `get_next_chunk` — a chunk that call
  set to SCANNING and that nothing else touches before the engine finishes
  with it (the single sequential engine runs maintenance only inside
  `get_next_chunk`), hence the side condition;
* `reset` — `db_manager.reset_stale_chunk` (maintenance);
* `promote` — `db_manager.promote_ignored_chunks` (maintenance). -/
inductive SchedStep : SchedStore → SchedStore → Prop where
  | create (s : SchedStore) (cidr startIp endIp : String) (priority : Int) (now : Nat) :
      SchedStep s
        { chunks := s.chunks ++
            [createScanChunk s.nextChunkId cidr startIp endIp priority now]
          nextChunkId := s.nextChunkId + 1 }
  | next (s : SchedStore) (now : Nat) :
      SchedStep s { s with chunks := (schedulerNext now s.chunks).1 }
  | complete (s : SchedStore) (id now : Nat)
      (h : ∀ c ∈ s.chunks, c.id = id → c.status = ChunkStatus.scanning) :
      SchedStep s
        { s with chunks := updateChunkStatus now id ChunkStatus.completed none s.chunks }
  | fail (s : SchedStore) (id now : Nat) (err : String)
      (h : ∀ c ∈ s.chunks, c.id = id → c.status = ChunkStatus.scanning) :
      SchedStep s
        { s with chunks := updateChunkStatus now id ChunkStatus.retrying (some err) s.chunks }
  | reset (s : SchedStore) (id now : Nat) :
      SchedStep s { s with chunks := resetStaleChunk now id s.chunks }
  | promote (s : SchedStore) (now cutoff : Nat) :
      SchedStep s { s with chunks := promoteIgnored now cutoff s.chunks }

/-- States reachable from the freshly initialized (empty) `scan_state`
table. -/
def SchedReachable (s : SchedStore) : Prop :=
  Relation.ReflTransGen SchedStep {} s

/-- The per-chunk retry invariant maintained by the system. -/
def chunkInv (c : ScanChunk) : Prop :=
  (c.status = ChunkStatus.queued → c.retryCount = 0) ∧
  (c.status = ChunkStatus.scanning → c.retryCount ≤ 2) ∧
  (c.status = ChunkStatus.completed → c.retryCount ≤ 2) ∧
  (c.status = ChunkStatus.retrying → c.retryCount ≤ 3)

/-- The store invariant: fresh ids, distinct ids, and every chunk's retry
invariant. -/
def storeInv (s : SchedStore) : Prop :=
  (∀ c ∈ s.chunks, c.id < s.nextChunkId) ∧
  (s.chunks.map (fun c => c.id)).Nodup ∧
  (∀ c ∈ s.chunks, chunkInv c)

/-! ## Concrete instances used in the theorems below -/

/-- An observation dict whose banner is `"Apache/2.4"` and whose (already
lowercased) headers contain `server: Apache`. -/
def exObs : FObs :=
  { banner := some "Apache/2.4"
    headers := fun h => if h = "server" then some "Apache" else none }

/-- A concrete `Matcher` recording what
`re.search(pattern, text, re.IGNORECASE)` returns on the finitely many
`(text, pattern)` pairs that evaluating `RULES` on `exObs` queries:
on `"Apache/2.4"` the patterns `Apache` (no capture group, `groups() = ()`)
and `Apache/([\d\.]+)` (one group capturing `"2.4"`) match and all other
`RULES` banner patterns do not; on the header value `"Apache"` only the
pattern `Apache` matches (with `groups() = ()`). -/
def exMatcher : Matcher := fun text pat =>
  if text = "Apache/2.4" ∧ pat = "Apache" then some []
  else if text = "Apache/2.4" ∧ pat = "Apache/([\\d\\.]+)" then some [some "2.4"]
  else if text = "Apache" ∧ pat = "Apache" then some []
  else none

/-- Spec scenario E5, observation 1: `(1.2.3.4, 22, open, "SSH-2.0-A")`. -/
def e5a : ObsRec :=
  { ip := "1.2.3.4", port := 22, protocol := "tcp", status := "open"
    banner := some "SSH-2.0-A", timestamp := 100 }

/-- Spec scenario E5, observation 2: same key, `open`, banner `"SSH-2.0-B"`. -/
def e5b : ObsRec :=
  { ip := "1.2.3.4", port := 22, protocol := "tcp", status := "open"
    banner := some "SSH-2.0-B", timestamp := 200 }

/-- Spec scenario E5, observation 3: same key, `closed`, empty banner. -/
def e5c : ObsRec :=
  { ip := "1.2.3.4", port := 22, protocol := "tcp", status := "closed"
    banner := some "", timestamp := 300 }

/-- An observation for a key with no existing Service row. -/
def dupObs : ObsRec :=
  { ip := "203.0.113.5", port := 1883, protocol := "tcp", status := "open"
    banner := some "x", timestamp := 50 }

/-- Spec scenario E1, chunk 1: `127.0.0.1/32` at priority 1, created
first. -/
def chunkE1a : ScanChunk :=
  createScanChunk 1 "127.0.0.1/32" "127.0.0.1" "127.0.0.1" 1 0

/-- Spec scenario E1, chunk 2: `127.0.0.2/32` at priority 10, created
second. -/
def chunkE1b : ScanChunk :=
  createScanChunk 2 "127.0.0.2/32" "127.0.0.2" "127.0.0.2" 10 1

/-! ## Theorems -/

/-- Claim C5: for every IPv4 CIDR with prefix length `p` accepted by
`initialize_scan`, exactly `max(1, 2^(24-p))` chunks are enqueued when
`p ≤ 24` and exactly 1 chunk when `p > 24`; an invalid CIDR enqueues
nothing and does not abort. -/
theorem initScan_chunk_count :
    (∀ n : IPv4Net, n.prefixLen ≤ 32 →
      (n.prefixLen ≤ 24 →
        (initScan (some n)).length = max 1 (2 ^ (24 - n.prefixLen))) ∧
      (24 < n.prefixLen → (initScan (some n)).length = 1)) ∧
    initScan none = [] := by
  constructor
  · intro n h32
    constructor
    · intro h24
      unfold initScan initScanChunks numAddresses CHUNK_SIZE
      by_cases hle : 2 ^ (32 - n.prefixLen) ≤ 256
      · have h8 : 32 - n.prefixLen ≤ 8 := by
          by_contra hgt
          push_neg at hgt
          have hmono : 2 ^ 9 ≤ 2 ^ (32 - n.prefixLen) :=
            Nat.pow_le_pow_right (by norm_num) hgt
          omega
        have hp : n.prefixLen = 24 := by omega
        simp [hle, hp]
      · have hlt : n.prefixLen < 24 := by
          rcases Nat.lt_or_ge n.prefixLen 24 with h | h
          · exact h
          · exfalso
            have hp : n.prefixLen = 24 := le_antisymm h24 h
            rw [hp] at hle
            norm_num at hle
        have hone : 1 ≤ 2 ^ (24 - n.prefixLen) := Nat.one_le_two_pow
        simp only [hle, if_false, hlt, if_true, List.length_map, List.length_range]
        omega
    · intro h24
      unfold initScan initScanChunks numAddresses CHUNK_SIZE
      have hle : 2 ^ (32 - n.prefixLen) ≤ 256 := by
        have h8 : 32 - n.prefixLen ≤ 8 := by omega
        calc 2 ^ (32 - n.prefixLen) ≤ 2 ^ 8 := Nat.pow_le_pow_right (by norm_num) h8
          _ = 256 := by norm_num
      simp [hle]
  · rfl

/-- Witness for `initScan_chunk_count`: a `/16` CIDR yields
`max 1 (2^8)` chunks. -/
theorem initScan_chunk_count_witness :
    (initScan (some ⟨167772160, 16⟩)).length = max 1 (2 ^ (24 - 16)) :=
  (initScan_chunk_count.1 ⟨167772160, 16⟩ (by decide)).1 (by decide)

/-- Claim C10: `reset_stale_chunk(id)` unconditionally sets the chunk with
that id to `QUEUED` with `retry_count = 0` and a fresh `updated_at`,
regardless of its current status (the statement quantifies over chunks of
any status, so in particular non-COMPLETED ones), and leaves `cidr`,
`chunk_start`, `chunk_end`, `priority` and `last_error` unchanged; rows
with other ids are untouched. -/
theorem resetStale_unconditional :
    ∀ (now chunkId : Nat) (tbl : List ScanChunk) (c : ScanChunk), c ∈ tbl →
      (c.id = chunkId →
        ∃ c2 ∈ resetStaleChunk now chunkId tbl,
          c2.status = ChunkStatus.queued ∧ c2.retryCount = 0 ∧ c2.updatedAt = now ∧
          c2.cidr = c.cidr ∧ c2.chunkStart = c.chunkStart ∧ c2.chunkEnd = c.chunkEnd ∧
          c2.priority = c.priority ∧ c2.lastError = c.lastError ∧
          c2.createdAt = c.createdAt ∧ c2.id = c.id) ∧
      (c.id ≠ chunkId → c ∈ resetStaleChunk now chunkId tbl) := by
  intro now chunkId tbl c hc
  constructor
  · intro hid
    refine ⟨{ c with status := ChunkStatus.queued, updatedAt := now, retryCount := 0 },
      ?_, rfl, rfl, rfl, rfl, rfl, rfl, rfl, rfl, rfl, rfl⟩
    unfold resetStaleChunk
    exact List.mem_map.mpr ⟨c, hc, by simp [hid]⟩
  · intro hid
    unfold resetStaleChunk
    exact List.mem_map.mpr ⟨c, hc, by simp [hid]⟩

/-- Witness for `resetStale_unconditional`: applied to a chunk currently
in SCANNING (not COMPLETED), which is still re-queued with
`retry_count = 0`. -/
theorem resetStale_unconditional_witness :
    ∃ c2 ∈ resetStaleChunk 99 5
        [⟨5, "10.0.0.0/24", "10.0.0.0", "10.0.0.255", ChunkStatus.scanning, 1, 2,
          some "boom", 10, 20⟩],
      c2.status = ChunkStatus.queued ∧ c2.retryCount = 0 ∧ c2.updatedAt = 99 ∧
      c2.cidr = "10.0.0.0/24" ∧ c2.chunkStart = "10.0.0.0" ∧ c2.chunkEnd = "10.0.0.255" ∧
      c2.priority = 1 ∧ c2.lastError = some "boom" ∧ c2.createdAt = 10 ∧ c2.id = 5 :=
  (resetStale_unconditional 99 5 _
    ⟨5, "10.0.0.0/24", "10.0.0.0", "10.0.0.255", ChunkStatus.scanning, 1, 2,
      some "boom", 10, 20⟩ (by simp)).1 rfl

/-- Claim C2, counterexample: `get_probe 80` is the HTTP probe, whose
catch-all handler maps a timeout to `status="closed"`, not
`status="timeout"` as the claim requires of every probe. -/
theorem probe_timeout_counterexample :
    get_probe 80 = ProbeKind.http ∧
    (probeFailObs (get_probe 80) 80 5 "198.51.100.7" Fault.timedOut).status = "closed" ∧
    (probeFailObs (get_probe 80) 80 5 "198.51.100.7" Fault.timedOut).status ≠ "timeout" :=
  ⟨rfl, rfl, by decide⟩

/-- Claim C2, amended: every probe's `run` returns an Observation for any
fault (the handlers modelled here are total), but only the generic
`TCPProbe` classifies failures as the claim states (refusal → closed,
timeout → timeout, other OSError → error with reason); every other probe
returned by `get_probe` maps every failure to `status="closed"` with
`error_reason = str(e)`. -/
theorem probe_failure_classification :
    ∀ (port lat : Nat) (ip msg : String),
      (get_probe port = ProbeKind.tcp →
        (probeFailObs (get_probe port) port lat ip Fault.timedOut).status = "timeout" ∧
        (probeFailObs (get_probe port) port lat ip Fault.timedOut).errorReason
            = some "Timeout" ∧
        (probeFailObs (get_probe port) port lat ip (Fault.refused msg)).status = "closed" ∧
        (probeFailObs (get_probe port) port lat ip (Fault.osError msg)).status = "error" ∧
        (probeFailObs (get_probe port) port lat ip (Fault.osError msg)).errorReason
            = some msg) ∧
      (get_probe port ≠ ProbeKind.tcp →
        ∀ f, (probeFailObs (get_probe port) port lat ip f).status = "closed" ∧
          (probeFailObs (get_probe port) port lat ip f).errorReason
              = some (faultStr f)) := by
  intro port lat ip msg
  constructor
  · intro htcp
    rw [htcp]
    exact ⟨rfl, rfl, rfl, rfl, rfl⟩
  · intro hntcp f
    cases hk : get_probe port
    case tcp => exact absurd hk hntcp
    all_goals cases f <;> exact ⟨rfl, rfl⟩

/-- Witness for `probe_failure_classification`: the TCP branch at port
3389 and the catch-all branch at port 1883 on a timeout. -/
theorem probe_failure_classification_witness :
    (probeFailObs (get_probe 3389) 3389 4 "192.0.2.9" Fault.timedOut).status = "timeout" ∧
    (probeFailObs (get_probe 1883) 1883 4 "192.0.2.9" Fault.timedOut).status = "closed" :=
  ⟨((probe_failure_classification 3389 4 "192.0.2.9" "m").1 (by decide)).1,
   ((probe_failure_classification 1883 4 "192.0.2.9" "m").2 (by decide) Fault.timedOut).1⟩

/-- Claim C9 (code bug): `probes.py` never imports `re`, so on every
successful Telnet connection the banner-cleanup line raises `NameError`
and the handler returns `status="closed"` with `error_reason = "name 're'
is not defined"` — instead of the open Observation with the
printable-stripped banner that the claim (and the code's own comment on
line 417) describes, shown here via `telnetIntendedRun`. -/
theorem telnet_run_name_error :
    (telnetRun 23 7 "198.51.100.7"
        (TelnetOutcome.success "Ubuntu 20.04\x07 login:")).status = "closed" ∧
    (telnetRun 23 7 "198.51.100.7"
        (TelnetOutcome.success "Ubuntu 20.04\x07 login:")).errorReason
      = some "name 're' is not defined" ∧
    (telnetRun 23 7 "198.51.100.7"
        (TelnetOutcome.success "Ubuntu 20.04\x07 login:")).banner = none ∧
    (telnetIntendedRun 23 7 "198.51.100.7"
        (TelnetOutcome.success "Ubuntu 20.04\x07 login:")).status = "open" ∧
    (telnetIntendedRun 23 7 "198.51.100.7"
        (TelnetOutcome.success "Ubuntu 20.04\x07 login:")).banner
      = some "Ubuntu 20.04 login:" :=
  ⟨rfl, rfl, rfl, rfl, by decide⟩

/-- Propositional reading of `betterChunk`. -/
theorem betterChunk_eq_true_iff (x y : ScanChunk) :
    betterChunk x y = true ↔
      (x.priority < y.priority ∨
        (x.priority = y.priority ∧ y.createdAt < x.createdAt)) := by
  simp [betterChunk]

/-- The fold inside `getNextChunkRow` returns an element of the candidate
list that no other candidate sorts strictly before. -/
theorem pickChunk_spec :
    ∀ (l : List ScanChunk) (a : ScanChunk),
      pickChunk a l ∈ a :: l ∧ ∀ d ∈ a :: l, ¬ betterChunk (pickChunk a l) d = true := by
  intro l
  induction l with
  | nil =>
    intro a
    have hnil : pickChunk a [] = a := rfl
    refine ⟨by simp [hnil], ?_⟩
    intro d hd
    have hda : d = a := by simpa using hd
    subst hda
    rw [hnil, betterChunk_eq_true_iff]
    omega
  | cons e t ih =>
    intro a
    have hstep : pickChunk a (e :: t) = pickChunk (if betterChunk a e then e else a) t := rfl
    rw [hstep]
    by_cases hae : betterChunk a e = true
    · rw [if_pos hae]
      rcases ih e with ⟨hmem, hmax⟩
      constructor
      · rcases List.mem_cons.mp hmem with h1 | h1
        · simp [h1]
        · simp [List.mem_cons, h1]
      · intro d hd
        rcases List.mem_cons.mp hd with rfl | hd2
        · have h1 := hmax e (List.mem_cons_self e t)
          rw [betterChunk_eq_true_iff] at h1 hae ⊢
          omega
        · exact hmax d hd2
    · rw [if_neg hae]
      rcases ih a with ⟨hmem, hmax⟩
      constructor
      · rcases List.mem_cons.mp hmem with h1 | h1
        · simp [h1]
        · simp [List.mem_cons, h1]
      · intro d hd
        rcases List.mem_cons.mp hd with rfl | hd2
        · exact hmax d (List.mem_cons_self d t)
        · rcases List.mem_cons.mp hd2 with rfl | hd3
          · have h1 := hmax a (List.mem_cons_self a t)
            rw [betterChunk_eq_true_iff] at h1 ⊢
            rw [show (betterChunk a d = true) ↔ _ from betterChunk_eq_true_iff a d] at hae
            omega
          · exact hmax d (List.mem_cons.mpr (Or.inr hd3))

/-- The store's `get_next_chunk` query returns a pending row that has
maximal priority and, among those, minimal `created_at`. -/
theorem getNextChunkRow_spec :
    ∀ (tbl : List ScanChunk) (c : ScanChunk), getNextChunkRow tbl = some c →
      c ∈ tbl ∧ isPending c = true ∧
      ∀ d ∈ tbl, isPending d = true →
        d.priority ≤ c.priority ∧ (d.priority = c.priority → c.createdAt ≤ d.createdAt) := by
  intro tbl c h
  unfold getNextChunkRow at h
  rcases hf : tbl.filter isPending with _ | ⟨c0, rest⟩
  · rw [hf] at h
    exact absurd h (by simp)
  · rw [hf] at h
    simp only [Option.some.injEq] at h
    have hspec := pickChunk_spec rest c0
    rw [h] at hspec
    have hmemf : c ∈ tbl.filter isPending := by
      rw [hf]; exact hspec.1
    refine ⟨(List.mem_filter.mp hmemf).1, (List.mem_filter.mp hmemf).2, ?_⟩
    intro d hd hdp
    have hdf : d ∈ tbl.filter isPending := List.mem_filter.mpr ⟨hd, hdp⟩
    rw [hf] at hdf
    have hnb := hspec.2 d hdf
    rw [betterChunk_eq_true_iff] at hnb
    constructor
    · omega
    · intro hpe
      omega

/-- The store's `get_next_chunk` query returns a row whenever some chunk
is QUEUED or RETRYING. -/
theorem getNextChunkRow_isSome :
    ∀ tbl : List ScanChunk, (∃ c ∈ tbl, isPending c = true) →
      (getNextChunkRow tbl).isSome = true := by
  intro tbl ⟨c, hc, hcp⟩
  unfold getNextChunkRow
  rcases hf : tbl.filter isPending with _ | ⟨c0, rest⟩
  · exfalso
    have : c ∈ tbl.filter isPending := List.mem_filter.mpr ⟨hc, hcp⟩
    rw [hf] at this
    exact absurd this (List.not_mem_nil c)
  · rfl

/-- Claim C7: whenever at least one chunk is QUEUED or RETRYING, the
store's `next()` returns a chunk with the maximal priority among all
QUEUED-or-RETRYING chunks, oldest `created_at` among ties; in particular
(scenario E1), after enqueuing `127.0.0.1/32` at priority 1 and then
`127.0.0.2/32` at priority 10, `next_chunk()` returns the chunk whose
start is `127.0.0.2`. -/
theorem next_chunk_priority_order :
    (∀ (tbl : List ScanChunk) (c : ScanChunk), getNextChunkRow tbl = some c →
      c ∈ tbl ∧ isPending c = true ∧
      ∀ d ∈ tbl, isPending d = true →
        d.priority ≤ c.priority ∧ (d.priority = c.priority → c.createdAt ≤ d.createdAt)) ∧
    (∀ tbl : List ScanChunk, (∃ c ∈ tbl, isPending c = true) →
      (getNextChunkRow tbl).isSome = true) ∧
    (getNextChunkRow [chunkE1a, chunkE1b]).map (fun c => c.chunkStart)
      = some "127.0.0.2" :=
  ⟨getNextChunkRow_spec, getNextChunkRow_isSome, by decide⟩

/-- Witness for `next_chunk_priority_order`: instantiated on the E1
table. -/
theorem next_chunk_priority_order_witness :
    isPending chunkE1b = true ∧ chunkE1a.priority ≤ chunkE1b.priority :=
  ⟨(next_chunk_priority_order.1 [chunkE1a, chunkE1b] chunkE1b (by decide)).2.1,
   ((next_chunk_priority_order.1 [chunkE1a, chunkE1b] chunkE1b (by decide)).2.2
      chunkE1a (by decide) (by decide)).1⟩

/-- The score and details accumulated by `FingerprintRule.evaluate`'s loop
do not depend on the instance's incoming `last_groups`. -/
theorem evalFold_state_indep (m : Matcher) (obs : FObs) :
    ∀ (ev : List (String × String × Int)) (t : Int) (d : List String)
      (lg1 lg2 : Option Groups),
      (ev.foldl (evaluateStep m obs) ⟨t, d, lg1⟩).totalScore
        = (ev.foldl (evaluateStep m obs) ⟨t, d, lg2⟩).totalScore ∧
      (ev.foldl (evaluateStep m obs) ⟨t, d, lg1⟩).details
        = (ev.foldl (evaluateStep m obs) ⟨t, d, lg2⟩).details := by
  intro ev
  induction ev with
  | nil => intro t d lg1 lg2; exact ⟨rfl, rfl⟩
  | cons e rest ih =>
    intro t d lg1 lg2
    simp only [List.foldl_cons]
    rcases hm : evidenceMatch m obs e.1 e.2.1 with _ | gs
    · have h1 : evaluateStep m obs ⟨t, d, lg1⟩ e = ⟨t, d, lg1⟩ := by
        simp [evaluateStep, hm]
      have h2 : evaluateStep m obs ⟨t, d, lg2⟩ e = ⟨t, d, lg2⟩ := by
        simp [evaluateStep, hm]
      rw [h1, h2]
      exact ih t d lg1 lg2
    · have h1 : evaluateStep m obs ⟨t, d, lg1⟩ e
          = ⟨t + e.2.2, d ++ ["Matched " ++ e.1], some gs⟩ := by
        simp [evaluateStep, hm]
      have h2 : evaluateStep m obs ⟨t, d, lg2⟩ e
          = ⟨t + e.2.2, d ++ ["Matched " ++ e.1], some gs⟩ := by
        simp [evaluateStep, hm]
      rw [h1, h2]
      exact ⟨rfl, rfl⟩

/-- The `last_groups` left by `FingerprintRule.evaluate`'s loop is the
`m.groups()` of the last matching evidence entry, or the incoming value
when nothing matched. -/
theorem evalFold_lastGroups (m : Matcher) (obs : FObs) :
    ∀ (ev : List (String × String × Int)) (t : Int) (d : List String)
      (lg : Option Groups),
      (ev.foldl (evaluateStep m obs) ⟨t, d, lg⟩).lastGroups
        = (match lastMatched m obs ev with
           | some g => some g
           | none => lg) := by
  intro ev
  induction ev with
  | nil => intro t d lg; simp [lastMatched]
  | cons e rest ih =>
    intro t d lg
    simp only [List.foldl_cons]
    rcases hm : evidenceMatch m obs e.1 e.2.1 with _ | gs
    · have h1 : evaluateStep m obs ⟨t, d, lg⟩ e = ⟨t, d, lg⟩ := by
        simp [evaluateStep, hm]
      rw [h1, ih t d lg]
      rcases hlm : lastMatched m obs rest with _ | g
      · simp [lastMatched, hlm, hm]
      · simp [lastMatched, hlm]
    · have h1 : evaluateStep m obs ⟨t, d, lg⟩ e
          = ⟨t + e.2.2, d ++ ["Matched " ++ e.1], some gs⟩ := by
        simp [evaluateStep, hm]
      rw [h1, ih _ _ (some gs)]
      rcases hlm : lastMatched m obs rest with _ | g
      · simp [lastMatched, hlm, hm]
      · simp [lastMatched, hlm]

/-- With no matching evidence, the loop leaves `total_score` at its
initial value. -/
theorem evalFold_score_nomatch (m : Matcher) (obs : FObs) :
    ∀ (ev : List (String × String × Int)) (t : Int) (d : List String)
      (lg : Option Groups), lastMatched m obs ev = none →
      (ev.foldl (evaluateStep m obs) ⟨t, d, lg⟩).totalScore = t := by
  intro ev
  induction ev with
  | nil => intro t d lg _; rfl
  | cons e rest ih =>
    intro t d lg hnone
    rcases hlm : lastMatched m obs rest with _ | g
    · have hm : evidenceMatch m obs e.1 e.2.1 = none := by
        have : lastMatched m obs (e :: rest) = evidenceMatch m obs e.1 e.2.1 := by
          simp [lastMatched, hlm]
        rw [← this, hnone]
      simp only [List.foldl_cons]
      have h1 : evaluateStep m obs ⟨t, d, lg⟩ e = ⟨t, d, lg⟩ := by
        simp [evaluateStep, hm]
      rw [h1]
      exact ih t d lg hlm
    · exfalso
      have : lastMatched m obs (e :: rest) = some g := by
        simp [lastMatched, hlm]
      rw [hnone] at this
      exact absurd this (by simp)

/-- `evaluate`'s score component is independent of the incoming
`last_groups` and bounded by 100. -/
theorem evaluate_score_state_indep (r : FingerprintRule) (m : Matcher) (obs : FObs)
    (lg1 lg2 : Option Groups) :
    (r.evaluate m obs lg1).1 = (r.evaluate m obs lg2).1 ∧
    (r.evaluate m obs lg1).2.1 = (r.evaluate m obs lg2).2.1 := by
  simp only [FingerprintRule.evaluate]
  have h := evalFold_state_indep m obs r.evidence 0 [] lg1 lg2
  exact ⟨by rw [h.1], by rw [h.2]⟩

/-- `evaluate`'s score is at most 100 (the `min(total_score, 100)` cap). -/
theorem evaluate_le_100 (r : FingerprintRule) (m : Matcher) (obs : FObs)
    (lg : Option Groups) : (r.evaluate m obs lg).1 ≤ 100 := by
  simp only [FingerprintRule.evaluate]
  exact min_le_right _ _

/-- `evaluate`'s returned `last_groups`. -/
theorem evaluate_lastGroups (r : FingerprintRule) (m : Matcher) (obs : FObs)
    (lg : Option Groups) :
    (r.evaluate m obs lg).2.2
      = (match lastMatched m obs r.evidence with
         | some g => some g
         | none => lg) := by
  simp only [FingerprintRule.evaluate]
  exact evalFold_lastGroups m obs r.evidence 0 [] lg

/-- A positive score means some evidence matched. -/
theorem evaluate_pos_match (r : FingerprintRule) (m : Matcher) (obs : FObs)
    (lg : Option Groups) (h : 0 < (r.evaluate m obs lg).1) :
    ∃ g, lastMatched m obs r.evidence = some g := by
  rcases hlm : lastMatched m obs r.evidence with _ | g
  · exfalso
    have hz := evalFold_score_nomatch m obs r.evidence 0 [] lg hlm
    simp only [FingerprintRule.evaluate] at h
    rw [hz] at h
    simp at h
  · exact ⟨g, rfl⟩

/-- The best-rule fold never decreases the running best score, bounds all
scanned scores, and yields either its initial accumulator or a scanned
entry paired with that entry's score. -/
theorem pickBest_go_spec :
    ∀ (l : List EvalRec) (acc : Option EvalRec × Int),
      acc.2 ≤ (l.foldl (fun acc e => if e.2.1 > acc.2 then (some e, e.2.1) else acc) acc).2 ∧
      (∀ e ∈ l,
        e.2.1 ≤ (l.foldl (fun acc e => if e.2.1 > acc.2 then (some e, e.2.1) else acc) acc).2) ∧
      ((l.foldl (fun acc e => if e.2.1 > acc.2 then (some e, e.2.1) else acc) acc) = acc ∨
        ∃ b ∈ l,
          (l.foldl (fun acc e => if e.2.1 > acc.2 then (some e, e.2.1) else acc) acc)
            = (some b, b.2.1)) := by
  intro l
  induction l with
  | nil =>
    intro acc
    exact ⟨le_refl _, by simp, Or.inl rfl⟩
  | cons e rest ih =>
    intro acc
    simp only [List.foldl_cons]
    by_cases hgt : e.2.1 > acc.2
    · rw [if_pos hgt]
      rcases ih (some e, e.2.1) with ⟨ih1, ih2, ih3⟩
      refine ⟨le_trans (le_of_lt hgt) ih1, ?_, ?_⟩
      · intro x hx
        rcases List.mem_cons.mp hx with rfl | hx2
        · exact ih1
        · exact ih2 x hx2
      · rcases ih3 with h | ⟨b, hb, h⟩
        · exact Or.inr ⟨e, List.mem_cons_self e rest, h⟩
        · exact Or.inr ⟨b, List.mem_cons.mpr (Or.inr hb), h⟩
    · rw [if_neg hgt]
      rcases ih acc with ⟨ih1, ih2, ih3⟩
      refine ⟨ih1, ?_, ?_⟩
      · intro x hx
        rcases List.mem_cons.mp hx with rfl | hx2
        · exact le_trans (le_of_not_lt hgt) ih1
        · exact ih2 x hx2
      · rcases ih3 with h | ⟨b, hb, h⟩
        · exact Or.inl h
        · exact Or.inr ⟨b, List.mem_cons.mpr (Or.inr hb), h⟩

/-- When the best-rule fold settles on entry `b`, every entry strictly
before `b`'s position scores strictly less, every entry after scores at
most `b`'s score, and `b` scored strictly above the initial accumulator. -/
theorem pickBest_sel_first :
    ∀ (l : List EvalRec) (acc : Option EvalRec × Int) (b : EvalRec),
      (l.foldl (fun acc e => if e.2.1 > acc.2 then (some e, e.2.1) else acc) acc)
          = (some b, b.2.1) →
      (acc = (some b, b.2.1) ∧ ∀ e ∈ l, e.2.1 ≤ b.2.1) ∨
      (∃ l1 l2, l = l1 ++ b :: l2 ∧ (∀ e ∈ l1, e.2.1 < b.2.1) ∧
        (∀ e ∈ l2, e.2.1 ≤ b.2.1) ∧ acc.2 < b.2.1) := by
  intro l
  induction l with
  | nil =>
    intro acc b h
    exact Or.inl ⟨h, by simp⟩
  | cons e rest ih =>
    intro acc b h
    simp only [List.foldl_cons] at h
    by_cases hgt : e.2.1 > acc.2
    · rw [if_pos hgt] at h
      rcases ih (some e, e.2.1) b h with ⟨hacc, hall⟩ | ⟨l1, l2, heq, hlt, hle, hacc2⟩
      · have heb : e = b := by
          have := congrArg Prod.fst hacc
          simpa using this
        have hsb : e.2.1 = b.2.1 := by rw [heb]
        refine Or.inr ⟨[], rest, ?_, by simp, hall, ?_⟩
        · rw [heb]; rfl
        · omega
      · have hacc2e : e.2.1 < b.2.1 := by simpa using hacc2
        refine Or.inr ⟨e :: l1, l2, by simp [heq], ?_, hle, ?_⟩
        · intro x hx
          rcases List.mem_cons.mp hx with rfl | hx2
          · exact hacc2e
          · exact hlt x hx2
        · omega
    · rw [if_neg hgt] at h
      rcases ih acc b h with ⟨hacc, hall⟩ | ⟨l1, l2, heq, hlt, hle, hacc2⟩
      · refine Or.inl ⟨hacc, ?_⟩
        intro x hx
        rcases List.mem_cons.mp hx with rfl | hx2
        · have : acc.2 = b.2.1 := by rw [hacc]
          omega
        · exact hall x hx2
      · refine Or.inr ⟨e :: l1, l2, by simp [heq], ?_, hle, hacc2⟩
        intro x hx
        rcases List.mem_cons.mp hx with rfl | hx2
        · omega
        · exact hlt x hx2

/-- Every entry produced by `runRules` carries a score of at most 100. -/
theorem runRules_le_100 (m : Matcher) (obs : FObs) (rs : List RuleState) :
    ∀ e ∈ runRules m obs rs, e.2.1 ≤ 100 := by
  intro e he
  rcases List.mem_map.mp he with ⟨p, _, rfl⟩
  exact evaluate_le_100 p.1 m obs p.2

/-- Claim C3: for every Observation passed to `analyze` (any matcher, any
rule states), the returned confidence lies in `[0, 100]`; the selected
rule is one whose capped evidence-weight sum is maximal over all rules
with ties broken in favor of the earliest-declared rule; and if the best
total is 0 the result is the all-unknown record with confidence 0. -/
theorem analyze_confidence_argmax :
    ∀ (m : Matcher) (rs : List RuleState) (obs : FObs),
      0 ≤ (analyzeWith m rs obs).1.confidence ∧
      (analyzeWith m rs obs).1.confidence ≤ 100 ∧
      (∀ e ∈ runRules m obs rs, e.2.1 ≤ (analyzeWith m rs obs).1.confidence) ∧
      ((∀ e ∈ runRules m obs rs, e.2.1 ≤ 0) → (analyzeWith m rs obs).1 = defaultResult) ∧
      (0 < (analyzeWith m rs obs).1.confidence →
        ∃ l1 b l2, runRules m obs rs = l1 ++ b :: l2 ∧
          (analyzeWith m rs obs).1.confidence = b.2.1 ∧
          (analyzeWith m rs obs).1.serviceType = b.1.type ∧
          (analyzeWith m rs obs).1.vendor = orUnknown b.1.vendor ∧
          (analyzeWith m rs obs).1.product = orUnknown b.1.product ∧
          (∀ e ∈ l1, e.2.1 < b.2.1) ∧ (∀ e ∈ l2, e.2.1 ≤ b.2.1)) := by
  intro m rs obs
  rcases hpb : pickBest (runRules m obs rs) with ⟨ob, s⟩
  have hgo := pickBest_go_spec (runRules m obs rs) (none, 0)
  have hpb2 : (runRules m obs rs).foldl
      (fun acc e => if e.2.1 > acc.2 then (some e, e.2.1) else acc) (none, 0) = (ob, s) := hpb
  rcases ob with _ | b
  · -- no rule scored above 0
    have hs0 : s = 0 := by
      rcases hgo.2.2 with h | ⟨b, _, h⟩
      · rw [hpb2] at h
        have := congrArg Prod.snd h
        simpa using this
      · rw [hpb2] at h
        exact absurd (congrArg Prod.fst h) (by simp)
    have hres : (analyzeWith m rs obs).1 = defaultResult := by
      simp only [analyzeWith]
      rw [hpb]
    refine ⟨by rw [hres]; norm_num [defaultResult], by rw [hres]; norm_num [defaultResult],
      ?_, fun _ => hres, ?_⟩
    · intro e he
      have := hgo.2.1 e he
      rw [hpb2] at this
      rw [hres]
      simpa [defaultResult, hs0] using this
    · intro hpos
      rw [hres] at hpos
      norm_num [defaultResult] at hpos
  · -- a best rule was selected
    have hsb : s = b.2.1 ∧ b ∈ runRules m obs rs := by
      rcases hgo.2.2 with h | ⟨b2, hb2, h⟩
      · rw [hpb2] at h
        exact absurd (congrArg Prod.fst h) (by simp)
      · rw [hpb2] at h
        have h1 := congrArg Prod.fst h
        have h2 := congrArg Prod.snd h
        simp only [Option.some.injEq] at h1
        subst h1
        simp only at h2
        subst h2
        exact ⟨rfl, hb2⟩
    have hres : (analyzeWith m rs obs).1 =
        { serviceType := b.1.type, vendor := orUnknown b.1.vendor
          product := orUnknown b.1.product, version := versionOf b.2.2.2
          tags := b.1.tags, confidence := s, evidence := b.2.2.1 } := by
      simp only [analyzeWith]
      rw [hpb]
    have h0s : 0 ≤ s := by
      have := hgo.1
      rw [hpb2] at this
      simpa using this
    have hsel := pickBest_sel_first (runRules m obs rs) (none, 0) b
      (by rw [hpb2, hsb.1])
    have hpos : (0 : Int) < b.2.1 := by
      rcases hsel with ⟨hacc, _⟩ | ⟨_, _, _, _, _, hacc2⟩
      · exact absurd (congrArg Prod.fst hacc) (by simp)
      · simpa using hacc2
    rcases hsel with ⟨hacc, _⟩ | ⟨l1, l2, heq, hlt, hle, _⟩
    · exact absurd (congrArg Prod.fst hacc) (by simp)
    refine ⟨?_, ?_, ?_, ?_, ?_⟩
    · rw [hres]; exact h0s
    · rw [hres]
      simpa [hsb.1] using runRules_le_100 m obs rs b hsb.2
    · intro e he
      have := hgo.2.1 e he
      rw [hpb2] at this
      rw [hres]
      simpa using this
    · intro hall
      exfalso
      have := hall b hsb.2
      omega
    · intro _
      exact ⟨l1, b, l2, heq, by rw [hres, hsb.1], by rw [hres], by rw [hres],
        by rw [hres], hlt, hle⟩

/-- Witness for `analyze_confidence_argmax`: instantiated on the Apache
observation with the concrete matcher. -/
theorem analyze_confidence_argmax_witness :
    0 ≤ (analyzeWith exMatcher RULES0 exObs).1.confidence ∧
    (analyzeWith exMatcher RULES0 exObs).1.confidence ≤ 100 :=
  ⟨(analyze_confidence_argmax exMatcher RULES0 exObs).1,
   (analyze_confidence_argmax exMatcher RULES0 exObs).2.1⟩

/-- Claim C4, counterexample: on `exObs` the winning rule is Apache
(confidence 100) and its second evidence pattern matched with capture
`"2.4"`, yet `analyze` returns `version = None` — because the third
evidence entry (`header:server`, no capture group) matched later and
overwrote `last_groups` with the empty tuple.  This refutes "if any
evidence pattern of the winning rule that matched contained a capture
group, the returned version is the first capture of the last matching
evidence entry". -/
theorem analyze_version_counterexample :
    (analyzeWith exMatcher RULES0 exObs).1.vendor = "Apache" ∧
    (analyzeWith exMatcher RULES0 exObs).1.confidence = 100 ∧
    (∃ r, RULES.head? = some r ∧ r.vendor = some "Apache" ∧
      ("banner", "Apache/([\\d\\.]+)", (60 : Int)) ∈ r.evidence ∧
      evidenceMatch exMatcher exObs "banner" "Apache/([\\d\\.]+)"
        = some [some "2.4"]) ∧
    (analyzeWith exMatcher RULES0 exObs).1.version = none := by
  refine ⟨by decide, by decide, ⟨_, rfl, rfl, by decide, by decide⟩, by decide⟩

/-- Evaluating the same rule list (with possibly different leftover
`last_groups` states) on the same observation yields pointwise-related
records: same rule, score and details, and equal `last_groups` whenever
the score is positive. -/
theorem runRules_rel (m : Matcher) (obs : FObs) :
    ∀ (rs rs2 : List RuleState), rs.map (fun p => p.1) = rs2.map (fun p => p.1) →
      List.Forall₂ (fun e1 e2 : EvalRec =>
        e1.1 = e2.1 ∧ e1.2.1 = e2.2.1 ∧ e1.2.2.1 = e2.2.2.1 ∧
        (0 < e1.2.1 → e1.2.2.2 = e2.2.2.2))
        (runRules m obs rs) (runRules m obs rs2) := by
  intro rs
  induction rs with
  | nil =>
    intro rs2 h
    have h2 : rs2 = [] := by simpa using h.symm
    subst h2
    exact List.Forall₂.nil
  | cons p t ih =>
    intro rs2 h
    cases rs2 with
    | nil => simp at h
    | cons q t2 =>
      simp only [List.map_cons, List.cons.injEq] at h
      obtain ⟨hpq, ht⟩ := h
      refine List.Forall₂.cons ⟨?_, ?_, ?_, ?_⟩ (ih t2 ht)
      · exact hpq
      · show (p.1.evaluate m obs p.2).1 = (q.1.evaluate m obs q.2).1
        rw [hpq]
        exact (evaluate_score_state_indep q.1 m obs p.2 q.2).1
      · show (p.1.evaluate m obs p.2).2.1 = (q.1.evaluate m obs q.2).2.1
        rw [hpq]
        exact (evaluate_score_state_indep q.1 m obs p.2 q.2).2
      · intro hpos
        show (p.1.evaluate m obs p.2).2.2 = (q.1.evaluate m obs q.2).2.2
        have hpos2 : 0 < (q.1.evaluate m obs p.2).1 := by rw [← hpq]; exact hpos
        rcases evaluate_pos_match q.1 m obs p.2 hpos2 with ⟨g, hg⟩
        rw [hpq, evaluate_lastGroups, evaluate_lastGroups, hg]

/-- The best-rule fold sends pointwise-related lists (in the sense of
`runRules_rel`) to the same result, for any accumulator with a
non-negative best score. -/
theorem pickBest_rel :
    ∀ (l1 l2 : List EvalRec),
      List.Forall₂ (fun e1 e2 : EvalRec =>
        e1.1 = e2.1 ∧ e1.2.1 = e2.2.1 ∧ e1.2.2.1 = e2.2.2.1 ∧
        (0 < e1.2.1 → e1.2.2.2 = e2.2.2.2)) l1 l2 →
      ∀ acc : Option EvalRec × Int, 0 ≤ acc.2 →
        l1.foldl (fun acc e => if e.2.1 > acc.2 then (some e, e.2.1) else acc) acc
          = l2.foldl (fun acc e => if e.2.1 > acc.2 then (some e, e.2.1) else acc) acc := by
  intro l1 l2 h
  induction h with
  | nil => intro acc _; rfl
  | cons he ht ih =>
    intro acc hacc
    rename_i e1 e2 t1 t2
    simp only [List.foldl_cons]
    obtain ⟨hr, hs, hd, hg⟩ := he
    by_cases hgt : e1.2.1 > acc.2
    · rw [if_pos hgt, if_pos (by rw [← hs]; exact hgt)]
      have he12 : e1 = e2 := by
        obtain ⟨r1, s1, d1, g1⟩ := e1
        obtain ⟨r2, s2, d2, g2⟩ := e2
        have h01 : (0 : Int) < s1 := lt_of_le_of_lt hacc hgt
        have hgg := hg h01
        simp only at hr hs hd hgg ⊢
        rw [hr, hs, hd, hgg]
      rw [he12]
      exact ih (some e2, e2.2.1) (by simp only; rw [← he12]; omega)
    · rw [if_neg hgt, if_neg (by rw [← hs]; exact hgt)]
      exact ih acc hacc

/-- Claim C4, amended: the full result of `analyze` — version included —
is a function of the current observation and matcher alone, independent
of the `last_groups` state earlier `analyze` calls left on the rule
instances; and the returned version is `versionOf` the winning rule's
last matching evidence groups: its first capture when that entry captured
anything, and `None` otherwise (in particular `None` when the last
matching entry has no capture group, even if an earlier matching entry of
the same call did). -/
theorem analyze_version_amended :
    (∀ (m : Matcher) (obs : FObs) (rs rs2 : List RuleState),
        rs.map (fun p => p.1) = rs2.map (fun p => p.1) →
        (analyzeWith m rs obs).1 = (analyzeWith m rs2 obs).1) ∧
    (∀ (m : Matcher) (obs : FObs) (rs : List RuleState) (b : EvalRec) (s : Int),
        pickBest (runRules m obs rs) = (some b, s) →
        (analyzeWith m rs obs).1.version = versionOf (lastMatched m obs b.1.evidence)) ∧
    (∀ (m : Matcher) (obs : FObs) (rs : List RuleState) (s : Int),
        pickBest (runRules m obs rs) = (none, s) →
        (analyzeWith m rs obs).1.version = none) := by
  refine ⟨?_, ?_, ?_⟩
  · intro m obs rs rs2 hmap
    have hpb : pickBest (runRules m obs rs) = pickBest (runRules m obs rs2) :=
      pickBest_rel _ _ (runRules_rel m obs rs rs2 hmap) (none, 0) (by norm_num)
    rcases hv : pickBest (runRules m obs rs2) with ⟨ob, s⟩
    rw [hv] at hpb
    simp only [analyzeWith]
    rw [hpb, hv]
    rcases ob with _ | b <;> rfl
  · intro m obs rs b s hpb
    have hgo := pickBest_go_spec (runRules m obs rs) (none, 0)
    have hpb2 : (runRules m obs rs).foldl
        (fun acc e => if e.2.1 > acc.2 then (some e, e.2.1) else acc) (none, 0)
          = (some b, s) := hpb
    have hsb : s = b.2.1 ∧ b ∈ runRules m obs rs := by
      rcases hgo.2.2 with h | ⟨b2, hb2, h⟩
      · rw [hpb2] at h
        exact absurd (congrArg Prod.fst h) (by simp)
      · rw [hpb2] at h
        have h1 := congrArg Prod.fst h
        have h2 := congrArg Prod.snd h
        simp only [Option.some.injEq] at h1
        subst h1
        simp only at h2
        subst h2
        exact ⟨rfl, hb2⟩
    have hpos : (0 : Int) < b.2.1 := by
      have hsel := pickBest_sel_first (runRules m obs rs) (none, 0) b
        (by rw [hpb2, hsb.1])
      rcases hsel with ⟨hacc, _⟩ | ⟨_, _, _, _, _, hacc2⟩
      · exact absurd (congrArg Prod.fst hacc) (by simp)
      · simpa using hacc2
    rcases List.mem_map.mp hsb.2 with ⟨p, _, hbp⟩
    have hscore : 0 < (p.1.evaluate m obs p.2).1 := by
      have : b.2.1 = (p.1.evaluate m obs p.2).1 := by rw [← hbp]
      omega
    rcases evaluate_pos_match p.1 m obs p.2 hscore with ⟨g, hg⟩
    have hlg : b.2.2.2 = some g := by
      rw [← hbp]
      show (p.1.evaluate m obs p.2).2.2 = some g
      rw [evaluate_lastGroups, hg]
    have hev : b.1.evidence = p.1.evidence := by rw [← hbp]
    simp only [analyzeWith]
    rw [hpb]
    simp only
    rw [hlg, hev, hg]
  · intro m obs rs s hpb
    simp only [analyzeWith]
    rw [hpb]
    rfl

/-- Witness for `analyze_version_amended`: the Apache analysis result is
unchanged when the rule instances start with polluted `last_groups`
state. -/
theorem analyze_version_amended_witness :
    (analyzeWith exMatcher RULES0 exObs).1
      = (analyzeWith exMatcher (RULES.map fun r => (r, some [some "9.9"])) exObs).1 :=
  analyze_version_amended.1 exMatcher exObs RULES0
    (RULES.map fun r => (r, some [some "9.9"]))
    (by simp [RULES0])

/-- A single-observation batch whose key has an existing Service row
takes the update path: hosts upserted, the planned update applied, the
planned history rows appended, no insert. -/
theorem save_single_update (db : DB) (o : ObsRec) (r : ServiceRow)
    (hfind : findService db.services (obsKey o) = some r) :
    saveObservationBatch db [o] = Except.ok
      { hosts := upsertHostBatch db.hosts [o]
        services := runUpdates db.services (planBatch db.services [o]).toUpdate
        history := db.history ++ (planBatch db.services [o]).histInserts
        nextServiceId := db.nextServiceId } := by
  have hins : (planBatch db.services [o]).toInsert = [] := by
    simp [planBatch, planStep, hfind]
  simp only [saveObservationBatch, if_neg (by simp : ¬([o] : List ObsRec) = [])]
  rw [hins]
  rfl

/-- The update entry planned for a single-observation batch over an
existing row. -/
theorem plan_single_update (svcs : List ServiceRow) (o : ObsRec) (r : ServiceRow)
    (hfind : findService svcs (obsKey o) = some r) :
    (planBatch svcs [o]).toUpdate =
      [{ ts := o.timestamp, banner := normBanner o.banner
         serviceType := o.analysis.bind fun d => d.serviceType
         vendor := o.analysis.bind fun d => d.vendor
         product := o.analysis.bind fun d => d.product
         version := o.analysis.bind fun d => d.version
         confidence := o.analysis.bind fun d => d.confidence
         tags := tagsValue o.analysis
         state := o.status, svcId := r.id }] ∧
    (planBatch svcs [o]).histInserts =
      (if histChanged (normBanner o.banner) o.status r.banner r.state then
        [{ serviceId := r.id, timestamp := o.timestamp
           banner := normBanner o.banner, state := o.status }]
       else []) := by
  constructor <;> simp [planBatch, planStep, hfind]

/-- A single-observation batch whose key has no existing Service row
takes the insert path. -/
theorem save_single_insert (db : DB) (o : ObsRec)
    (hfind : findService db.services (obsKey o) = none) :
    saveObservationBatch db [o] = Except.ok
      { hosts := upsertHostBatch db.hosts [o]
        services := db.services ++ [insertRowOf o db.nextServiceId]
        history := db.history
        nextServiceId := db.nextServiceId + 1 } := by
  have hins : (planBatch db.services [o]).toInsert = [o] := by
    simp [planBatch, planStep, hfind]
  have hupd : (planBatch db.services [o]).toUpdate = [] := by
    simp [planBatch, planStep, hfind]
  have hhist : (planBatch db.services [o]).histInserts = [] := by
    simp [planBatch, planStep, hfind]
  have hany : (db.services.any fun r => rowKey r = obsKey o) = false := by
    rw [List.any_eq_false]
    intro r hr
    have := List.find?_eq_none.mp hfind r hr
    simpa using this
  simp only [saveObservationBatch, if_neg (by simp : ¬([o] : List ObsRec) = [])]
  rw [hins, hupd, hhist]
  simp only [runInserts, hany, Bool.false_eq_true, if_false]
  simp [runUpdates]

/-- Equivalence of the code's history condition (new state vs stored row)
with the claim's adjacent-pair condition, for a row whose state is the
previous observation's status and whose stored banner is the previous
observation's banner either raw (insert path) or normalized (update
path). -/
theorem histChanged_eq_pairChanged (prev o : ObsRec) (r : ServiceRow)
    (hst : r.state = prev.status)
    (hbn : r.banner = prev.banner ∨ r.banner = some (normBanner prev.banner)) :
    histChanged (normBanner o.banner) o.status r.banner r.state = pairChanged prev o := by
  rw [Bool.eq_iff_iff]
  simp only [histChanged, pairChanged, Bool.or_eq_true, Bool.and_eq_true,
    decide_eq_true_eq, hst]
  rw [or_comm]
  apply or_congr_right
  by_cases hnb : normBanner o.banner = ""
  · simp [hnb]
  · have hob : o.banner = some (normBanner o.banner) := by
      cases ho : o.banner with
      | none => exact absurd (by rw [ho]; rfl) hnb
      | some s => rfl
    constructor
    · rintro ⟨-, hne⟩
      refine ⟨?_, hnb⟩
      rw [hob]
      intro h
      apply hne
      rcases hbn with hb | hb
      · rw [hb, ← h]
      · rw [hb, ← h]
        rfl
    · rintro ⟨hne, -⟩
      refine ⟨hnb, ?_⟩
      intro h
      apply hne
      rw [hob]
      rcases hbn with hb | hb
      · rw [hb] at h
        exact h.symm
      · rw [hb] at h
        cases hp : prev.banner with
        | none =>
          exfalso
          apply hnb
          rw [hp] at h
          exact (Option.some.inj h).symm
        | some t =>
          rw [hp] at h
          have ht : normBanner o.banner = t := by
            have h2 := Option.some.inj h
            simpa [normBanner] using h2.symm
          rw [ht]

/-- Saving one observation over a single-row services table updates that
row in place: the new state is the observation's status, the stored
banner becomes the normalized new banner, the key is unchanged, and
exactly one history row is appended iff the code's history condition
holds against the old row. -/
theorem save_step_singleton (o : ObsRec) (r : ServiceRow) (db : DB)
    (hsvc : db.services = [r]) (hrko : rowKey r = obsKey o) :
    ∃ (r2 : ServiceRow) (db2 : DB),
      saveObservationBatch db [o] = Except.ok db2 ∧
      db2.services = [r2] ∧
      db2.history.length = db.history.length +
        (if histChanged (normBanner o.banner) o.status r.banner r.state then 1 else 0) ∧
      r2.state = o.status ∧ r2.banner = some (normBanner o.banner) ∧
      rowKey r2 = rowKey r := by
  have hfind : findService db.services (obsKey o) = some r := by
    rw [hsvc]
    unfold findService
    rw [List.find?_cons_of_pos _ (by simp [hrko])]
  obtain ⟨hupd, hhist⟩ := plan_single_update db.services o r hfind
  have hsave := save_single_update db o r hfind
  refine ⟨applyUpdate
    { ts := o.timestamp, banner := normBanner o.banner
      serviceType := o.analysis.bind fun d => d.serviceType
      vendor := o.analysis.bind fun d => d.vendor
      product := o.analysis.bind fun d => d.product
      version := o.analysis.bind fun d => d.version
      confidence := o.analysis.bind fun d => d.confidence
      tags := tagsValue o.analysis
      state := o.status, svcId := r.id } r, _, hsave, ?_, ?_, ?_, ?_, ?_⟩
  · show runUpdates db.services (planBatch db.services [o]).toUpdate = _
    rw [hupd, hsvc]
    rfl
  · show (db.history ++ (planBatch db.services [o]).histInserts).length = _
    rw [hhist]
    by_cases hc : histChanged (normBanner o.banner) o.status r.banner r.state
    · simp [hc]
    · simp [hc]
  · simp [applyUpdate]
  · simp [applyUpdate]
  · simp [applyUpdate, rowKey]

/-- Processing a sequence of single-observation batches for one key over
a single-row table: the history grows by exactly the number of changed
adjacent pairs, counting the pair with the previous observation. -/
theorem processSeq_count (k : String × Nat × String) :
    ∀ (obs : List ObsRec) (prev : ObsRec) (r : ServiceRow) (db : DB),
      db.services = [r] → rowKey r = k → (∀ o ∈ obs, obsKey o = k) →
      r.state = prev.status →
      (r.banner = prev.banner ∨ r.banner = some (normBanner prev.banner)) →
      ∃ db2, processSeq db obs = Except.ok db2 ∧
        db2.history.length = db.history.length + countChanges (prev :: obs) := by
  intro obs
  induction obs with
  | nil =>
    intro prev r db hsvc hkey hall hst hbn
    exact ⟨db, rfl, by simp [countChanges]⟩
  | cons o rest ih =>
    intro prev r db hsvc hkey hall hst hbn
    have hko : obsKey o = k := hall o (List.mem_cons_self o rest)
    have hrko : rowKey r = obsKey o := by rw [hkey, ← hko]
    obtain ⟨r2, db2, hsave, hsvc2, hlen2, hst2, hbn2, hkey2⟩ :=
      save_step_singleton o r db hsvc hrko
    obtain ⟨db3, hrun, hlen3⟩ := ih o r2 db2 hsvc2 (by rw [hkey2, hrko, hko])
      (fun x hx => hall x (List.mem_cons.mpr (Or.inr hx))) hst2 (Or.inr hbn2)
    refine ⟨db3, ?_, ?_⟩
    · show processSeq db (o :: rest) = Except.ok db3
      simp only [processSeq, hsave]
      exact hrun
    · have heq := histChanged_eq_pairChanged prev o r hst hbn
      have hcc : countChanges (prev :: o :: rest)
          = (if pairChanged prev o then 1 else 0) + countChanges (o :: rest) := rfl
      rw [hcc, hlen3, hlen2, heq]
      cases hpc : pairChanged prev o <;> simp [hpc] <;> omega

/-- Claim C1: a single-observation update of an existing Service appends
a HistoryEvent iff, relative to the pre-update row, the state differs or
the new (normalized) banner is non-empty and differs from the stored
banner; and over any non-empty sequence of single-observation batches for
a fixed `(ip, port, protocol)` starting from an empty store, the number
of HistoryEvents equals the number of adjacent observation pairs whose
status differs or whose later banner is non-empty and differs. -/
theorem save_history_iff_change :
    (∀ (db : DB) (o : ObsRec) (r : ServiceRow),
      findService db.services (obsKey o) = some r →
      ∃ db2, saveObservationBatch db [o] = Except.ok db2 ∧
        db2.history = db.history ++
          (if o.status ≠ r.state ∨
              (normBanner o.banner ≠ "" ∧ r.banner ≠ some (normBanner o.banner))
           then [{ serviceId := r.id, timestamp := o.timestamp
                   banner := normBanner o.banner, state := o.status }]
           else [])) ∧
    (∀ (k : String × Nat × String) (obs : List ObsRec), obs ≠ [] →
      (∀ o ∈ obs, obsKey o = k) →
      ∃ db2, processSeq emptyDB obs = Except.ok db2 ∧
        db2.history.length = countChanges obs) := by
  constructor
  · intro db o r hfind
    obtain ⟨hupd, hhist⟩ := plan_single_update db.services o r hfind
    refine ⟨_, save_single_update db o r hfind, ?_⟩
    show db.history ++ (planBatch db.services [o]).histInserts = _
    rw [hhist]
    congr 1
    apply if_congr _ rfl rfl
    simp only [histChanged, Bool.or_eq_true, Bool.and_eq_true, decide_eq_true_eq]
    exact or_comm
  · intro k obs hne hall
    cases obs with
    | nil => exact absurd rfl hne
    | cons o rest =>
      have hfind : findService emptyDB.services (obsKey o) = none := rfl
      have hsave := save_single_insert emptyDB o hfind
      have hrow : rowKey (insertRowOf o emptyDB.nextServiceId) = obsKey o := rfl
      obtain ⟨db3, hrun, hlen⟩ := processSeq_count k rest o
        (insertRowOf o emptyDB.nextServiceId)
        { hosts := upsertHostBatch emptyDB.hosts [o]
          services := emptyDB.services ++ [insertRowOf o emptyDB.nextServiceId]
          history := emptyDB.history
          nextServiceId := emptyDB.nextServiceId + 1 }
        rfl
        (by rw [hrow, hall o (List.mem_cons_self o rest)])
        (fun x hx => hall x (List.mem_cons.mpr (Or.inr hx)))
        rfl
        (Or.inl rfl)
      refine ⟨db3, ?_, ?_⟩
      · show processSeq emptyDB (o :: rest) = Except.ok db3
        simp only [processSeq, hsave]
        exact hrun
      · rw [hlen]
        simp [emptyDB]

/-- Witness for `save_history_iff_change`: the E5 sequence (banner
change, then state change) yields exactly two HistoryEvents. -/
theorem save_history_iff_change_witness :
    countChanges [e5a, e5b, e5c] = 2 ∧
    ∃ db2, processSeq emptyDB [e5a, e5b, e5c] = Except.ok db2 ∧
      db2.history.length = countChanges [e5a, e5b, e5c] :=
  ⟨by decide,
   save_history_iff_change.2 ("1.2.3.4", 22, "tcp") [e5a, e5b, e5c]
     (by decide) (by decide)⟩

/-- Claim C8, counterexample: a batch holding the same fresh key twice
plans two inserts for that key, and the second `INSERT` violates
`UNIQUE(ip, port, protocol)`, so the batch raises instead of committing. -/
theorem save_duplicate_key_counterexample :
    (planBatch emptyDB.services [dupObs, dupObs]).toInsert.length = 2 ∧
    saveObservationBatch emptyDB [dupObs, dupObs]
      = Except.error
          "UNIQUE constraint failed: services.ip, services.port, services.protocol" := by
  constructor
  · decide
  · rfl

/-- The partition loop only appends to its accumulator. -/
theorem planStep_append (svcs : List ServiceRow) (p : BatchPlan) (o : ObsRec) :
    planStep svcs p o =
      { toInsert := p.toInsert ++ (planStep svcs {} o).toInsert
        toUpdate := p.toUpdate ++ (planStep svcs {} o).toUpdate
        histInserts := p.histInserts ++ (planStep svcs {} o).histInserts } := by
  unfold planStep
  cases hf : findService svcs (obsKey o) <;> simp

/-- Unfolding `planBatch` over a cons: the head's contribution is
prepended to the tail's plan, componentwise. -/
theorem planBatch_acc (svcs : List ServiceRow) :
    ∀ (obs : List ObsRec) (p : BatchPlan),
      obs.foldl (planStep svcs) p =
        { toInsert := p.toInsert ++ (planBatch svcs obs).toInsert
          toUpdate := p.toUpdate ++ (planBatch svcs obs).toUpdate
          histInserts := p.histInserts ++ (planBatch svcs obs).histInserts } := by
  intro obs
  induction obs with
  | nil => intro p; simp [planBatch]
  | cons o t ih =>
    intro p
    rw [List.foldl_cons, ih (planStep svcs p o), planStep_append svcs p o]
    have h2 : planBatch svcs (o :: t) = t.foldl (planStep svcs) (planStep svcs {} o) := by
      simp [planBatch]
    rw [h2, ih (planStep svcs {} o)]
    simp [List.append_assoc]

/-- `planBatch` over a cons, componentwise. -/
theorem planBatch_cons (svcs : List ServiceRow) (o : ObsRec) (obs : List ObsRec) :
    planBatch svcs (o :: obs) =
      { toInsert := (planStep svcs {} o).toInsert ++ (planBatch svcs obs).toInsert
        toUpdate := (planStep svcs {} o).toUpdate ++ (planBatch svcs obs).toUpdate
        histInserts := (planStep svcs {} o).histInserts
          ++ (planBatch svcs obs).histInserts } := by
  have h2 : planBatch svcs (o :: obs) = obs.foldl (planStep svcs) (planStep svcs {} o) := by
    simp [planBatch]
  rw [h2, planBatch_acc svcs obs (planStep svcs {} o), planStep_append svcs {} o]

/-- The planned inserts form a sublist of the batch. -/
theorem planBatch_toInsert_sublist (svcs : List ServiceRow) :
    ∀ obs : List ObsRec, List.Sublist (planBatch svcs obs).toInsert obs := by
  intro obs
  induction obs with
  | nil => simp [planBatch]
  | cons o t ih =>
    rw [planBatch_cons]
    cases hf : findService svcs (obsKey o)
    · simp only [planStep, hf]
      exact (List.cons_sublist_cons).mpr ih
    · simp only [planStep, hf]
      simp only [List.nil_append]
      exact ih.cons o

/-- Every planned insert's key is absent from the pre-batch table. -/
theorem planBatch_toInsert_absent (svcs : List ServiceRow) :
    ∀ obs : List ObsRec, ∀ o2 ∈ (planBatch svcs obs).toInsert,
      findService svcs (obsKey o2) = none := by
  intro obs
  induction obs with
  | nil => simp [planBatch]
  | cons o t ih =>
    intro o2 h2
    rw [planBatch_cons] at h2
    rcases List.mem_append.mp h2 with hh | hh
    · cases hf : findService svcs (obsKey o)
      · simp only [planStep, hf] at hh
        have : o2 = o := by simpa using hh
        rw [this, hf]
      · simp only [planStep, hf] at hh
        simp at hh
    · exact ih o2 hh

/-- Every planned update's `svcId` is the id of the row found for some
batch observation's key. -/
theorem planBatch_toUpdate_src (svcs : List ServiceRow) :
    ∀ obs : List ObsRec, ∀ u ∈ (planBatch svcs obs).toUpdate,
      ∃ o2 ∈ obs, ∃ r, findService svcs (obsKey o2) = some r ∧ u.svcId = r.id := by
  intro obs
  induction obs with
  | nil => simp [planBatch]
  | cons o t ih =>
    intro u hu
    rw [planBatch_cons] at hu
    rcases List.mem_append.mp hu with hh | hh
    · cases hf : findService svcs (obsKey o) with
      | none => simp only [planStep, hf] at hh; simp at hh
      | some r =>
        simp only [planStep, hf] at hh
        simp only [List.nil_append, List.mem_singleton] at hh
        exact ⟨o, List.mem_cons_self o t, r, hf, by rw [hh]⟩
    · obtain ⟨o2, ho2, r, hr, hid⟩ := ih u hh
      exact ⟨o2, List.mem_cons.mpr (Or.inr ho2), r, hr, hid⟩

/-- Each observation is planned as exactly one insert or one update. -/
theorem planBatch_length (svcs : List ServiceRow) :
    ∀ obs : List ObsRec,
      (planBatch svcs obs).toInsert.length + (planBatch svcs obs).toUpdate.length
        = obs.length := by
  intro obs
  induction obs with
  | nil => simp [planBatch]
  | cons o t ih =>
    rw [planBatch_cons]
    cases hf : findService svcs (obsKey o) <;>
      simp only [planStep, hf, List.length_append, List.length_cons, List.length_nil,
        List.nil_append, List.length_singleton] <;> omega

/-- With pairwise-distinct keys (and id-unique, key-unique tables), the
planned updates target pairwise-distinct service ids. -/
theorem planBatch_toUpdate_nodup (svcs : List ServiceRow)
    (hids : (svcs.map fun r => r.id).Nodup) :
    ∀ obs : List ObsRec, (obs.map obsKey).Nodup →
      ((planBatch svcs obs).toUpdate.map fun u => u.svcId).Nodup := by
  intro obs
  induction obs with
  | nil => intro _; simp [planBatch]
  | cons o t ih =>
    intro hnd
    rw [List.map_cons, List.nodup_cons] at hnd
    rw [planBatch_cons]
    cases hf : findService svcs (obsKey o) with
    | none =>
      simp only [planStep, hf, List.nil_append]
      exact ih hnd.2
    | some r =>
      simp only [planStep, hf]
      simp only [List.nil_append, List.map_append, List.map_cons, List.map_nil,
        List.singleton_append, List.nodup_cons]
      refine ⟨?_, ih hnd.2⟩
      intro hmem
      rcases List.mem_map.mp hmem with ⟨u, hu, hid⟩
      obtain ⟨o2, ho2, r2, hr2, hid2⟩ := planBatch_toUpdate_src svcs t u hu
      have hrmem : r ∈ svcs := List.mem_of_find?_eq_some hf
      have hrkey : rowKey r = obsKey o := by
        have := List.find?_some hf
        simpa using this
      have hr2mem : r2 ∈ svcs := List.mem_of_find?_eq_some hr2
      have hr2key : rowKey r2 = obsKey o2 := by
        have := List.find?_some hr2
        simpa using this
      have hideq : r2.id = r.id := by
        rw [← hid2, hid]
      have hreq : r2 = r := List.inj_on_of_nodup_map hids hr2mem hrmem hideq
      apply hnd.1
      rw [← hrkey, ← hreq, hr2key]
      exact List.mem_map.mpr ⟨o2, ho2, rfl⟩

/-- Inserting rows whose keys are pairwise distinct and absent from the
table succeeds and appends exactly those keys. -/
theorem runInserts_ok :
    ∀ (ins : List ObsRec) (svcs : List ServiceRow) (nid : Nat),
      (∀ o2 ∈ ins, ∀ r ∈ svcs, rowKey r ≠ obsKey o2) →
      (ins.map obsKey).Nodup →
      ∃ svcs2 nid2, runInserts svcs nid ins = Except.ok (svcs2, nid2) ∧
        svcs2.map rowKey = svcs.map rowKey ++ ins.map obsKey := by
  intro ins
  induction ins with
  | nil =>
    intro svcs nid _ _
    exact ⟨svcs, nid, rfl, by simp⟩
  | cons o t ih =>
    intro svcs nid habs hnd
    rw [List.map_cons, List.nodup_cons] at hnd
    have hany : (svcs.any fun r => rowKey r = obsKey o) = false := by
      rw [List.any_eq_false]
      intro r hr
      simpa using habs o (List.mem_cons_self o t) r hr
    have habs2 : ∀ o2 ∈ t, ∀ r ∈ svcs ++ [insertRowOf o nid], rowKey r ≠ obsKey o2 := by
      intro o2 ho2 r hr
      rcases List.mem_append.mp hr with hh | hh
      · exact habs o2 (List.mem_cons.mpr (Or.inr ho2)) r hh
      · have : r = insertRowOf o nid := by simpa using hh
        rw [this]
        show obsKey o ≠ obsKey o2
        intro hkk
        exact hnd.1 (hkk ▸ List.mem_map.mpr ⟨o2, ho2, rfl⟩)
    obtain ⟨svcs2, nid2, hrun, hmap⟩ := ih (svcs ++ [insertRowOf o nid]) (nid + 1) habs2 hnd.2
    refine ⟨svcs2, nid2, ?_, ?_⟩
    · simp only [runInserts, hany, Bool.false_eq_true, if_false]
      exact hrun
    · rw [hmap]
      simp only [List.map_append, List.map_cons, List.map_nil, List.append_assoc,
        List.singleton_append]
      rfl

/-- Applying the planned updates changes no row's key. -/
theorem runUpdates_map_rowKey :
    ∀ (us : List UpdateEntry) (svcs : List ServiceRow),
      (runUpdates svcs us).map rowKey = svcs.map rowKey := by
  intro us
  induction us with
  | nil => intro svcs; rfl
  | cons u t ih =>
    intro svcs
    have h1 : runUpdates svcs (u :: t) = runUpdates (svcs.map (applyUpdate u)) t := rfl
    rw [h1, ih (svcs.map (applyUpdate u)), List.map_map]
    apply List.map_congr_left
    intro r _
    show rowKey (applyUpdate u r) = rowKey r
    unfold applyUpdate
    by_cases hid : r.id = u.svcId <;> simp [hid, rowKey]

/-- Claim C8, amended: for every batch whose `(ip, port, protocol)` keys
are pairwise distinct, against a key-unique and id-unique services table,
the batch commits, key-uniqueness is preserved, and each key is planned
as exactly one insert or one update (insert keys pairwise distinct,
update targets pairwise distinct); a batch containing two observations
with the same key that has no existing row instead fails the UNIQUE
constraint and commits nothing (see the counterexample). -/
theorem save_batch_upsert_amended :
    ∀ (db : DB) (obs : List ObsRec),
      (obs.map obsKey).Nodup →
      (db.services.map rowKey).Nodup →
      (db.services.map fun r => r.id).Nodup →
      ∃ db2, saveObservationBatch db obs = Except.ok db2 ∧
        (db2.services.map rowKey).Nodup ∧
        (planBatch db.services obs).toInsert.length
          + (planBatch db.services obs).toUpdate.length = obs.length ∧
        ((planBatch db.services obs).toInsert.map obsKey).Nodup ∧
        ((planBatch db.services obs).toUpdate.map fun u => u.svcId).Nodup := by
  intro db obs hobs hkeys hids
  have hlen := planBatch_length db.services obs
  have hinsnd : ((planBatch db.services obs).toInsert.map obsKey).Nodup :=
    hobs.sublist ((planBatch_toInsert_sublist db.services obs).map obsKey)
  have hupdnd := planBatch_toUpdate_nodup db.services hids obs hobs
  by_cases hnil : obs = []
  · subst hnil
    exact ⟨db, rfl, hkeys, hlen, hinsnd, hupdnd⟩
  · have habs : ∀ o2 ∈ (planBatch db.services obs).toInsert,
        ∀ r ∈ db.services, rowKey r ≠ obsKey o2 := by
      intro o2 ho2 r hr
      have hnone := planBatch_toInsert_absent db.services obs o2 ho2
      have := List.find?_eq_none.mp hnone r hr
      simpa using this
    obtain ⟨svcs2, nid2, hrun, hmap⟩ :=
      runInserts_ok (planBatch db.services obs).toInsert db.services
        db.nextServiceId habs hinsnd
    refine ⟨{ hosts := upsertHostBatch db.hosts obs
              services := runUpdates svcs2 (planBatch db.services obs).toUpdate
              history := db.history ++ (planBatch db.services obs).histInserts
              nextServiceId := nid2 }, ?_, ?_, hlen, hinsnd, hupdnd⟩
    · simp only [saveObservationBatch, if_neg hnil]
      rw [hrun]
    · show ((runUpdates svcs2 (planBatch db.services obs).toUpdate).map rowKey).Nodup
      rw [runUpdates_map_rowKey, hmap]
      refine List.Nodup.append hkeys hinsnd ?_
      intro k hk1 hk2
      rcases List.mem_map.mp hk2 with ⟨o2, ho2, hko2⟩
      rcases List.mem_map.mp hk1 with ⟨r, hr, hkr⟩
      exact habs o2 ho2 r hr (by rw [hkr, hko2])

/-- Witness for `save_batch_upsert_amended`: a two-key batch against the
empty store commits with both rows inserted. -/
theorem save_batch_upsert_amended_witness :
    ∃ db2, saveObservationBatch emptyDB [e5a, dupObs] = Except.ok db2 ∧
      (db2.services.map rowKey).Nodup ∧
      (planBatch emptyDB.services [e5a, dupObs]).toInsert.length
        + (planBatch emptyDB.services [e5a, dupObs]).toUpdate.length = 2 ∧
      ((planBatch emptyDB.services [e5a, dupObs]).toInsert.map obsKey).Nodup ∧
      ((planBatch emptyDB.services [e5a, dupObs]).toUpdate.map fun u => u.svcId).Nodup :=
  save_batch_upsert_amended emptyDB [e5a, dupObs] (by decide) (by decide) (by decide)

/-- `scheduler.get_next_chunk` on an empty candidate set returns nothing
and leaves the table unchanged. -/
theorem schedulerNext_eq_none (now : Nat) (tbl : List ScanChunk)
    (h : getNextChunkRow tbl = none) : schedulerNext now tbl = (tbl, none) := by
  rw [schedulerNext.eq_def]
  split
  · rfl
  · next c h2 => rw [h] at h2; exact absurd h2 (by simp)

/-- `scheduler.get_next_chunk` marks an exhausted candidate FAILED and
recurses. -/
theorem schedulerNext_eq_high (now : Nat) (tbl : List ScanChunk) (c : ScanChunk)
    (h : getNextChunkRow tbl = some c) (hrc : MAX_RETRIES ≤ c.retryCount) :
    schedulerNext now tbl = schedulerNext now
      (updateChunkStatus now c.id ChunkStatus.failed (some "Max Retries Exceeded") tbl) := by
  rw [schedulerNext.eq_def]
  split
  · next h2 => rw [h] at h2; exact absurd h2 (by simp)
  · next c2 h2 =>
    rw [h] at h2
    have hc : c2 = c := by simpa using h2.symm
    subst hc
    rw [if_pos hrc]

/-- `scheduler.get_next_chunk` marks a valid candidate SCANNING and
returns its id and range. -/
theorem schedulerNext_eq_ok (now : Nat) (tbl : List ScanChunk) (c : ScanChunk)
    (h : getNextChunkRow tbl = some c) (hrc : c.retryCount < MAX_RETRIES) :
    schedulerNext now tbl =
      (updateChunkStatus now c.id ChunkStatus.scanning none tbl,
       some (c.id, c.chunkStart, c.chunkEnd)) := by
  rw [schedulerNext.eq_def]
  split
  · next h2 => rw [h] at h2; exact absurd h2 (by simp)
  · next c2 h2 =>
    rw [h] at h2
    have hc : c2 = c := by simpa using h2.symm
    subst hc
    rw [if_neg (by omega)]

/-- Status transitions change no row's id. -/
theorem updateChunkStatus_map_id (now chunkId : Nat) (st : ChunkStatus)
    (err : Option String) (tbl : List ScanChunk) :
    ((updateChunkStatus now chunkId st err tbl).map fun c => c.id)
      = tbl.map fun c => c.id := by
  unfold updateChunkStatus
  rw [List.map_map]
  apply List.map_congr_left
  intro c _
  by_cases hc : c.id = chunkId <;> by_cases he : errTruthy err <;> simp [hc, he]

/-- Marking the current candidate FAILED strictly decreases the number of
pending (QUEUED or RETRYING) chunks. -/
theorem countP_pending_fail_lt (now : Nat) (tbl : List ScanChunk) (c : ScanChunk)
    (err : Option String) (hg : getNextChunkRow tbl = some c) :
    (updateChunkStatus now c.id ChunkStatus.failed err tbl).countP isPending
      < tbl.countP isPending := by
  obtain ⟨hc_mem, hc_pend, -⟩ := getNextChunkRow_spec tbl c hg
  unfold updateChunkStatus
  have hrow : ∀ x : ScanChunk,
      (if isPending (if x.id = c.id then
        (if errTruthy err then
          { x with status := ChunkStatus.failed, lastError := err
                   updatedAt := now, retryCount := x.retryCount + 1 }
         else { x with status := ChunkStatus.failed, updatedAt := now }) else x)
       then 1 else 0)
      ≤ (if isPending x then 1 else 0) := by
    intro x
    by_cases hid : x.id = c.id
    · by_cases he : errTruthy err <;> simp [hid, he, isPending]
    · simp [hid]
  have main : ∀ l : List ScanChunk, c ∈ l →
      (l.map fun x =>
        if x.id = c.id then
          (if errTruthy err then
            { x with status := ChunkStatus.failed, lastError := err
                     updatedAt := now, retryCount := x.retryCount + 1 }
           else { x with status := ChunkStatus.failed, updatedAt := now })
        else x).countP isPending < l.countP isPending := by
    intro l
    induction l with
    | nil => intro hmem; exact absurd hmem (List.not_mem_nil c)
    | cons a t ih =>
      intro hmem
      have hbound : ∀ l2 : List ScanChunk,
          (l2.map fun x =>
            if x.id = c.id then
              (if errTruthy err then
                { x with status := ChunkStatus.failed, lastError := err
                         updatedAt := now, retryCount := x.retryCount + 1 }
               else { x with status := ChunkStatus.failed, updatedAt := now })
            else x).countP isPending ≤ l2.countP isPending := by
        intro l2
        rw [List.countP_map]
        exact List.countP_mono_left fun x _ hx => by
          have := hrow x
          by_cases hp : isPending x
          · exact hp
          · simp only [Function.comp] at hx
            simp [hx, hp] at this
      rcases List.mem_cons.mp hmem with heq | hmem2
      · simp only [List.map_cons, List.countP_cons]
        have h1 := hbound t
        have h2 : (if isPending (if a.id = c.id then
            (if errTruthy err then
              { a with status := ChunkStatus.failed, lastError := err
                       updatedAt := now, retryCount := a.retryCount + 1 }
             else { a with status := ChunkStatus.failed, updatedAt := now }) else a)
            then 1 else 0) = 0 := by
          have hid : a.id = c.id := by rw [← heq]
          by_cases he : errTruthy err <;> simp [hid, he, isPending]
        have h3 : (if isPending a then 1 else 0) = 1 := by
          have hpa : isPending a = true := heq ▸ hc_pend
          simp [hpa]
        omega
      · simp only [List.map_cons, List.countP_cons]
        have h1 := ih hmem2
        have h2 := hrow a
        omega
  exact main tbl hc_mem

/-- Marking rows FAILED preserves every chunk's retry invariant. -/
theorem updateChunkStatus_inv_failed (now chunkId : Nat) (err : Option String)
    (tbl : List ScanChunk) (hinv : ∀ c ∈ tbl, chunkInv c) :
    ∀ d ∈ updateChunkStatus now chunkId ChunkStatus.failed err tbl, chunkInv d := by
  intro d hd
  unfold updateChunkStatus at hd
  rcases List.mem_map.mp hd with ⟨x, hx, hdx⟩
  by_cases hid : x.id = chunkId
  · by_cases he : errTruthy err <;>
      · rw [← hdx]
        simp [hid, he, chunkInv]
  · rw [← hdx]
    simp only [hid, if_false]
    exact hinv x hx

/-- One full `scheduler.get_next_chunk` call preserves the set of row ids
and every chunk's retry invariant. -/
theorem schedulerNext_preserves (now : Nat) :
    ∀ (n : Nat) (tbl : List ScanChunk), tbl.countP isPending ≤ n →
      ((tbl.map fun c => c.id).Nodup) → (∀ c ∈ tbl, chunkInv c) →
      (((schedulerNext now tbl).1.map fun c => c.id) = tbl.map fun c => c.id) ∧
      (∀ c ∈ (schedulerNext now tbl).1, chunkInv c) := by
  intro n
  induction n with
  | zero =>
    intro tbl hle hnd hinv
    have hfil : tbl.filter isPending = [] := by
      have := List.countP_eq_length_filter isPending tbl
      have hlen : (tbl.filter isPending).length = 0 := by omega
      exact List.length_eq_zero.mp hlen
    have hg : getNextChunkRow tbl = none := by
      unfold getNextChunkRow
      rw [hfil]
    rw [schedulerNext_eq_none now tbl hg]
    exact ⟨rfl, hinv⟩
  | succ n ih =>
    intro tbl hle hnd hinv
    cases hg : getNextChunkRow tbl with
    | none =>
      rw [schedulerNext_eq_none now tbl hg]
      exact ⟨rfl, hinv⟩
    | some c =>
      by_cases hrc : MAX_RETRIES ≤ c.retryCount
      · rw [schedulerNext_eq_high now tbl c hg hrc]
        have hdec := countP_pending_fail_lt now tbl c (some "Max Retries Exceeded") hg
        have hids := updateChunkStatus_map_id now c.id ChunkStatus.failed
          (some "Max Retries Exceeded") tbl
        have hres := ih (updateChunkStatus now c.id ChunkStatus.failed
            (some "Max Retries Exceeded") tbl)
          (by omega) (by rw [hids]; exact hnd)
          (updateChunkStatus_inv_failed now c.id (some "Max Retries Exceeded") tbl hinv)
        exact ⟨hres.1.trans hids, hres.2⟩
      · rw [schedulerNext_eq_ok now tbl c hg (by omega)]
        refine ⟨updateChunkStatus_map_id now c.id ChunkStatus.scanning none tbl, ?_⟩
        intro d hd
        unfold updateChunkStatus at hd
        rcases List.mem_map.mp hd with ⟨x, hx, hdx⟩
        by_cases hid : x.id = c.id
        · obtain ⟨hc_mem, hc_pend, -⟩ := getNextChunkRow_spec tbl c hg
          have hxc : x = c :=
            List.inj_on_of_nodup_map hnd hx hc_mem hid
          subst hxc
          have hrc2 : x.retryCount ≤ 2 := by
            have hix := hinv x hx
            unfold chunkInv at hix
            unfold isPending at hc_pend
            rcases Bool.or_eq_true _ _ |>.mp hc_pend with hq | hr
            · have := hix.1 (by simpa using hq)
              omega
            · have := hix.2.2.2 (by simpa using hr)
              unfold MAX_RETRIES at hrc
              omega
          rw [← hdx]
          simp only [hid, if_true]
          simp [errTruthy, chunkInv, hrc2]
        · rw [← hdx]
          simp only [hid, if_false]
          exact hinv x hx

/-- Stale resets change no row's id. -/
theorem resetStaleChunk_map_id (now chunkId : Nat) (tbl : List ScanChunk) :
    ((resetStaleChunk now chunkId tbl).map fun c => c.id) = tbl.map fun c => c.id := by
  unfold resetStaleChunk
  rw [List.map_map]
  apply List.map_congr_left
  intro c _
  by_cases hc : c.id = chunkId <;> simp [hc]

/-- Priority promotion changes no row's id. -/
theorem promoteIgnored_map_id (now cutoff : Nat) (tbl : List ScanChunk) :
    ((promoteIgnored now cutoff tbl).map fun c => c.id) = tbl.map fun c => c.id := by
  unfold promoteIgnored
  rw [List.map_map]
  apply List.map_congr_left
  intro c _
  simp only [Function.comp_apply]
  split <;> rfl

/-- Id freshness transfers along an id-preserving table transformation. -/
theorem fresh_of_map_id_eq {tbl2 tbl : List ScanChunk} {N : Nat}
    (hmap : (tbl2.map fun c => c.id) = tbl.map fun c => c.id)
    (hfresh : ∀ c ∈ tbl, c.id < N) : ∀ c ∈ tbl2, c.id < N := by
  intro c hc
  have hm : c.id ∈ tbl2.map fun c => c.id := List.mem_map.mpr ⟨c, hc, rfl⟩
  rw [hmap] at hm
  rcases List.mem_map.mp hm with ⟨c0, hc0, hid⟩
  rw [← hid]
  exact hfresh c0 hc0

/-- Every operation the system performs on `scan_state` preserves the
store invariant. -/
theorem storeInv_step (s s2 : SchedStore) (hinv : storeInv s)
    (hstep : SchedStep s s2) : storeInv s2 := by
  obtain ⟨hfresh, hnd, hchunks⟩ := hinv
  cases hstep with
  | create cidr startIp endIp priority now =>
    refine ⟨?_, ?_, ?_⟩
    · intro c hc
      rcases List.mem_append.mp hc with hh | hh
      · exact lt_trans (hfresh c hh) (Nat.lt_succ_self _)
      · have hceq : c = createScanChunk s.nextChunkId cidr startIp endIp priority now := by
          simpa using hh
        rw [hceq]
        exact Nat.lt_succ_self _
    · rw [List.map_append]
      refine List.Nodup.append hnd (by simp) ?_
      intro x hx1 hx2
      simp only [List.map_cons, List.map_nil, List.mem_singleton] at hx2
      rcases List.mem_map.mp hx1 with ⟨c, hc, hcx⟩
      have hlt := hfresh c hc
      have hxid : x = s.nextChunkId := hx2
      omega
    · intro c hc
      rcases List.mem_append.mp hc with hh | hh
      · exact hchunks c hh
      · have hceq : c = createScanChunk s.nextChunkId cidr startIp endIp priority now := by
          simpa using hh
        rw [hceq]
        simp [chunkInv, createScanChunk]
  | next now =>
    have hpres := schedulerNext_preserves now (s.chunks.countP isPending) s.chunks
      (le_refl _) hnd hchunks
    exact ⟨fresh_of_map_id_eq hpres.1 hfresh, by rw [hpres.1]; exact hnd, hpres.2⟩
  | complete id now h =>
    have hids := updateChunkStatus_map_id now id ChunkStatus.completed none s.chunks
    refine ⟨fresh_of_map_id_eq hids hfresh, by rw [hids]; exact hnd, ?_⟩
    intro d hd
    unfold updateChunkStatus at hd
    rcases List.mem_map.mp hd with ⟨x, hx, hdx⟩
    by_cases hid : x.id = id
    · have hscan : x.status = ChunkStatus.scanning := h x hx hid
      have hrc : x.retryCount ≤ 2 := (hchunks x hx).2.1 hscan
      rw [← hdx]
      simp [hid, errTruthy, chunkInv, hrc]
    · rw [← hdx]
      simp only [hid, if_false]
      exact hchunks x hx
  | fail id now err h =>
    have hids := updateChunkStatus_map_id now id ChunkStatus.retrying (some err) s.chunks
    refine ⟨fresh_of_map_id_eq hids hfresh, by rw [hids]; exact hnd, ?_⟩
    intro d hd
    unfold updateChunkStatus at hd
    rcases List.mem_map.mp hd with ⟨x, hx, hdx⟩
    by_cases hid : x.id = id
    · have hscan : x.status = ChunkStatus.scanning := h x hx hid
      have hrc : x.retryCount ≤ 2 := (hchunks x hx).2.1 hscan
      rw [← hdx]
      by_cases he : errTruthy (some err) = true
      · simp [hid, he, chunkInv]
        omega
      · simp [hid, he, chunkInv]
        omega
    · rw [← hdx]
      simp only [hid, if_false]
      exact hchunks x hx
  | reset id now =>
    have hids := resetStaleChunk_map_id now id s.chunks
    refine ⟨fresh_of_map_id_eq hids hfresh, by rw [hids]; exact hnd, ?_⟩
    intro d hd
    unfold resetStaleChunk at hd
    rcases List.mem_map.mp hd with ⟨x, hx, hdx⟩
    by_cases hid : x.id = id
    · rw [← hdx]
      simp [hid, chunkInv]
    · rw [← hdx]
      simp only [hid, if_false]
      exact hchunks x hx
  | promote now cutoff =>
    have hids := promoteIgnored_map_id now cutoff s.chunks
    refine ⟨fresh_of_map_id_eq hids hfresh, by rw [hids]; exact hnd, ?_⟩
    intro d hd
    unfold promoteIgnored at hd
    rcases List.mem_map.mp hd with ⟨x, hx, hdx⟩
    have hcx := hchunks x hx
    rw [← hdx]
    split
    · exact hcx
    · exact hcx

/-- A pending row of a FAILED-marked table was already a row of the
original table. -/
theorem mem_of_pending_updateFailed (now chunkId : Nat) (err : Option String)
    (tbl : List ScanChunk) (d : ScanChunk)
    (hd : d ∈ updateChunkStatus now chunkId ChunkStatus.failed err tbl)
    (hp : isPending d = true) : d ∈ tbl := by
  unfold updateChunkStatus at hd
  rcases List.mem_map.mp hd with ⟨x, hx, hdx⟩
  by_cases hid : x.id = chunkId
  · exfalso
    rw [← hdx] at hp
    by_cases he : errTruthy err <;> simp [hid, he, isPending] at hp
  · rw [← hdx]
    simp only [hid, if_false]
    exact hx

/-- Whatever `scheduler.get_next_chunk` returns corresponds to a chunk of
the pre-call table that was QUEUED or RETRYING with `retry_count` below
`MAX_RETRIES`. -/
theorem schedulerNext_ret (now : Nat) :
    ∀ (n : Nat) (tbl : List ScanChunk), tbl.countP isPending ≤ n →
      ∀ (id : Nat) (st en : String), (schedulerNext now tbl).2 = some (id, st, en) →
      ∃ c ∈ tbl, c.id = id ∧ c.chunkStart = st ∧ c.chunkEnd = en ∧
        c.retryCount < MAX_RETRIES ∧ isPending c = true := by
  intro n
  induction n with
  | zero =>
    intro tbl hle id st en hret
    have hfil : tbl.filter isPending = [] := by
      have := List.countP_eq_length_filter isPending tbl
      have hlen : (tbl.filter isPending).length = 0 := by omega
      exact List.length_eq_zero.mp hlen
    have hg : getNextChunkRow tbl = none := by
      unfold getNextChunkRow
      rw [hfil]
    rw [schedulerNext_eq_none now tbl hg] at hret
    exact absurd hret (by simp)
  | succ n ih =>
    intro tbl hle id st en hret
    cases hg : getNextChunkRow tbl with
    | none =>
      rw [schedulerNext_eq_none now tbl hg] at hret
      exact absurd hret (by simp)
    | some c =>
      by_cases hrc : MAX_RETRIES ≤ c.retryCount
      · rw [schedulerNext_eq_high now tbl c hg hrc] at hret
        have hdec := countP_pending_fail_lt now tbl c (some "Max Retries Exceeded") hg
        obtain ⟨c2, hc2, hrest⟩ := ih
          (updateChunkStatus now c.id ChunkStatus.failed (some "Max Retries Exceeded") tbl)
          (by omega) id st en hret
        exact ⟨c2, mem_of_pending_updateFailed now c.id (some "Max Retries Exceeded")
          tbl c2 hc2 hrest.2.2.2.2, hrest⟩
      · rw [schedulerNext_eq_ok now tbl c hg (by omega)] at hret
        simp only [Option.some.injEq, Prod.mk.injEq] at hret
        obtain ⟨hc_mem, hc_pend, -⟩ := getNextChunkRow_spec tbl c hg
        exact ⟨c, hc_mem, hret.1, hret.2.1, hret.2.2, by omega, hc_pend⟩

/-- Once every row with a given id is FAILED, a full
`scheduler.get_next_chunk` call keeps it FAILED. -/
theorem schedulerNext_failed_stay (now chunkId : Nat) :
    ∀ (n : Nat) (tbl : List ScanChunk), tbl.countP isPending ≤ n →
      (∀ d ∈ tbl, d.id = chunkId → d.status = ChunkStatus.failed) →
      ∀ d ∈ (schedulerNext now tbl).1, d.id = chunkId → d.status = ChunkStatus.failed := by
  intro n
  induction n with
  | zero =>
    intro tbl hle hfl
    have hfil : tbl.filter isPending = [] := by
      have := List.countP_eq_length_filter isPending tbl
      have hlen : (tbl.filter isPending).length = 0 := by omega
      exact List.length_eq_zero.mp hlen
    have hg : getNextChunkRow tbl = none := by
      unfold getNextChunkRow
      rw [hfil]
    rw [schedulerNext_eq_none now tbl hg]
    exact hfl
  | succ n ih =>
    intro tbl hle hfl
    cases hg : getNextChunkRow tbl with
    | none =>
      rw [schedulerNext_eq_none now tbl hg]
      exact hfl
    | some c =>
      obtain ⟨hc_mem, hc_pend, -⟩ := getNextChunkRow_spec tbl c hg
      have hcid : c.id ≠ chunkId := by
        intro heq
        have := hfl c hc_mem heq
        rw [isPending, this] at hc_pend
        simp at hc_pend
      have hstatus_pres : ∀ (st : ChunkStatus) (err : Option String),
          ∀ d ∈ updateChunkStatus now c.id st err tbl,
            d.id = chunkId → d.status = ChunkStatus.failed := by
        intro st err d hd hdid
        unfold updateChunkStatus at hd
        rcases List.mem_map.mp hd with ⟨x, hx, hdx⟩
        by_cases hid : x.id = c.id
        · exfalso
          apply hcid
          rw [← hid, ← hdid, ← hdx]
          by_cases he : errTruthy err <;> simp [hid, he]
        · rw [← hdx] at hdid ⊢
          simp only [hid, if_false] at hdid ⊢
          exact hfl x hx hdid
      by_cases hrc : MAX_RETRIES ≤ c.retryCount
      · rw [schedulerNext_eq_high now tbl c hg hrc]
        have hdec := countP_pending_fail_lt now tbl c (some "Max Retries Exceeded") hg
        exact ih (updateChunkStatus now c.id ChunkStatus.failed
            (some "Max Retries Exceeded") tbl)
          (by omega) (hstatus_pres ChunkStatus.failed (some "Max Retries Exceeded"))
      · rw [schedulerNext_eq_ok now tbl c hg (by omega)]
        exact hstatus_pres ChunkStatus.scanning none

/-- Every reachable `scan_state` table satisfies the store invariant. -/
theorem sched_reachable_storeInv : ∀ s : SchedStore, SchedReachable s → storeInv s := by
  intro s hs
  induction hs with
  | refl =>
    refine ⟨?_, List.nodup_nil, ?_⟩
    · intro c2 hc2
      exact absurd hc2 (List.not_mem_nil c2)
    · intro c2 hc2
      exact absurd hc2 (List.not_mem_nil c2)
  | tail hsteps hstep ih => exact storeInv_step _ _ ih hstep

/-- Claim C6: in every reachable store state, a chunk not in FAILED has
`retry_count ≤ MAX_RETRIES`; `scheduler.get_next_chunk` never returns a
chunk whose `retry_count ≥ MAX_RETRIES` (the returned id belongs to a
pre-call chunk with `retry_count < MAX_RETRIES`); and a candidate with
`retry_count ≥ MAX_RETRIES` is transitioned to FAILED by the call, which
recurses to the next candidate. -/
theorem chunk_retry_invariant :
    (∀ s : SchedStore, SchedReachable s →
      ∀ c ∈ s.chunks, c.status ≠ ChunkStatus.failed → c.retryCount ≤ MAX_RETRIES) ∧
    (∀ (now : Nat) (tbl : List ScanChunk) (id : Nat) (st en : String),
      (schedulerNext now tbl).2 = some (id, st, en) →
      ∃ c ∈ tbl, c.id = id ∧ c.retryCount < MAX_RETRIES) ∧
    (∀ (now : Nat) (tbl : List ScanChunk) (c : ScanChunk),
      getNextChunkRow tbl = some c → MAX_RETRIES ≤ c.retryCount →
      schedulerNext now tbl
        = schedulerNext now
            (updateChunkStatus now c.id ChunkStatus.failed
              (some "Max Retries Exceeded") tbl) ∧
      ∀ d ∈ (schedulerNext now tbl).1, d.id = c.id →
        d.status = ChunkStatus.failed) := by
  refine ⟨?_, ?_, ?_⟩
  · intro s hs c hc hne
    have hci := (sched_reachable_storeInv s hs).2.2 c hc
    unfold chunkInv at hci
    unfold MAX_RETRIES
    cases hst : c.status with
    | queued => have := hci.1 hst; omega
    | scanning => have := hci.2.1 hst; omega
    | completed => have := hci.2.2.1 hst; omega
    | retrying => have := hci.2.2.2 hst; unfold MAX_RETRIES at this; omega
    | failed => exact absurd hst hne
  · intro now tbl id st en hret
    obtain ⟨c, hcm, hid, -, -, hrc, -⟩ :=
      schedulerNext_ret now (tbl.countP isPending) tbl (le_refl _) id st en hret
    exact ⟨c, hcm, hid, hrc⟩
  · intro now tbl c hg hrc
    have heq := schedulerNext_eq_high now tbl c hg hrc
    refine ⟨heq, ?_⟩
    intro d hd hdi
    rw [heq] at hd
    have hprop : ∀ d2 ∈ updateChunkStatus now c.id ChunkStatus.failed
        (some "Max Retries Exceeded") tbl,
        d2.id = c.id → d2.status = ChunkStatus.failed := by
      intro d2 hd2 hd2i
      unfold updateChunkStatus at hd2
      rcases List.mem_map.mp hd2 with ⟨x, hx, hdx⟩
      by_cases hid : x.id = c.id
      · rw [← hdx]
        by_cases he : errTruthy (some "Max Retries Exceeded") <;> simp [hid, he]
      · exfalso
        apply hid
        rw [← hdx] at hd2i
        simpa [hid] using hd2i
    exact schedulerNext_failed_stay now c.id _ _ (le_refl _) hprop d hd hdi

/-- Witness for `chunk_retry_invariant`: a freshly created chunk in a
reachable store respects the retry bound, and a concrete RETRYING chunk
with `retry_count = 3` makes `get_next_chunk` mark it FAILED and
recurse. -/
theorem chunk_retry_invariant_witness :
    (createScanChunk 1 "10.0.0.0/24" "10.0.0.0" "10.0.0.255" 1 0).retryCount
        ≤ MAX_RETRIES ∧
    schedulerNext 5
        [⟨7, "10.0.0.0/24", "10.0.0.0", "10.0.0.255", ChunkStatus.retrying, 1, 3,
          none, 0, 0⟩]
      = schedulerNext 5
          (updateChunkStatus 5 7 ChunkStatus.failed (some "Max Retries Exceeded")
            [⟨7, "10.0.0.0/24", "10.0.0.0", "10.0.0.255", ChunkStatus.retrying, 1, 3,
              none, 0, 0⟩]) :=
  ⟨chunk_retry_invariant.1
      { chunks := [createScanChunk 1 "10.0.0.0/24" "10.0.0.0" "10.0.0.255" 1 0]
        nextChunkId := 2 }
      (Relation.ReflTransGen.single
        (SchedStep.create {} "10.0.0.0/24" "10.0.0.0" "10.0.0.255" 1 0))
      _ (by simp) (by decide),
   (chunk_retry_invariant.2.2 5
      [⟨7, "10.0.0.0/24", "10.0.0.0", "10.0.0.255", ChunkStatus.retrying, 1, 3,
        none, 0, 0⟩]
      ⟨7, "10.0.0.0/24", "10.0.0.0", "10.0.0.255", ChunkStatus.retrying, 1, 3,
        none, 0, 0⟩
      (by decide) (by decide)).1⟩

end DeepFocus
